import Mathlib

/-!
WordFinder: a verification development for `wordFinder.c`.

The program takes a word and one to five files; one thread per file (`runner`) scans the
file line by line and prints each line in which the word occurs, ignoring ASCII case.

Conventions of the embedding.

* A byte is a `Nat`; the value `10` is `'\n'` and `0` is the NUL terminator.
* A `char*` is the list of bytes found in memory from the pointer on; the C string it denotes
  is `cstr`, the bytes before the first NUL.  Strings of `argv` carry no NUL of their own.
* An open `FILE*` is the list of bytes not read yet; `fgetc` yields `none` for `EOF`.
* Each `fprintf` call is one entry (the bytes written) in the list standing for the stream.
* `while` loops are run with a fuel counter and return `none` when the counter runs out;
  `runner` supplies a counter that is proved to be enough.
* `int capacity` and `int len` are integers kept in 32 bits by `wrap32` after each operation
  (two's complement; C itself leaves signed overflow undefined).  The bytes stored in `buffer`
  are kept as a list, so what a line holds does not depend on these two counters; that the
  stores fall inside the block is the matter of the relation between `capacity` and `len`.
* `runner` stores no terminator behind the lower-cased copy of a line, so `strstr` reads on into
  memory the program never set.  What it finds there is a parameter, `heap`: `heap k` is the
  content of memory behind the bytes stored for the line number `k` (from 0) of the file.
* `readLine`, `scanLoop` and `runner` keep the bytes of a line whatever `realloc` answers.
  `readLineChecked`, `scanLoopChecked` and `runnerChecked` are the same loops in which a
  `realloc` that is refused returns NULL and the store through it ends the process; on files
  whose lines have at most `5 * 2^28` bytes the two agree (`runnerChecked_opened`).
* Where the place of a store matters, the stores of the program are listed as `Store`s into
  named blocks (`lineStores`, `strcpyStores`) next to the sizes asked of `malloc` (`allocated`).
* `strcpy` stores the terminator of `word` one byte behind its block.  What a worker reads at
  `word` is therefore `wordRead arg behind`, where `behind` is the content of memory behind the
  block when the worker reads it.
* `main` is the list of its steps.  Workers run concurrently with it; for a run with one worker
  the outputs that every schedule allows are given by `oneWorkerStdout`.
-/

namespace WordFinder

/-! ## Library functions used by the program -/

/-- Bytes of a string literal made of ASCII characters. -/
def bytes (s : String) : List Nat := s.toList.map Char.toNat

/-- The library function `tolower` in the "C" locale (the program never sets another one):
the letters `'A'..'Z'` (65..90) go to `'a'..'z'`, every other value is returned as is. -/
def tolower (c : Nat) : Nat := if 65 ≤ c ∧ c ≤ 90 then c + 32 else c

/-- The C string held in memory `mem`: the bytes before the first NUL. -/
def cstr (mem : List Nat) : List Nat := mem.takeWhile (fun c => decide (c ≠ 0))

/-- The library function `strlen`. -/
def strlen (mem : List Nat) : Nat := (cstr mem).length

/-- Whether the string `hay` begins with the string `needle`. -/
def startsWith : List Nat → List Nat → Bool
  | _, [] => true
  | [], _ :: _ => false
  | a :: hay, b :: needle => a == b && startsWith hay needle

/-- The library function `strstr` on two C strings: the tail of `hay` from the first
occurrence of `needle` on, or `none` (the NULL pointer) when there is none. -/
def strstr : List Nat → List Nat → Option (List Nat)
  | [], needle => if startsWith [] needle then some [] else none
  | c :: hay, needle =>
    if startsWith (c :: hay) needle then some (c :: hay) else strstr hay needle

/-- The library function `fgetc` on a stream: the next byte and the stream after it, or
`none` (`EOF`) at end of input. -/
def fgetc (fp : List Nat) : Option Nat × List Nat :=
  match fp with
  | [] => (none, [])
  | c :: rest => (some c, rest)

/-- Modelled from the spec: the constant `EXIT_FAILURE` of `stdlib.h`, which is not in the
source, is the failure status, a value other than zero (1, as in the GNU C library). -/
def EXIT_FAILURE : Nat := 1

/-- Modelled from the spec: the constant `EXIT_SUCCESS` of `stdlib.h`, which is not in the
source, is the success status 0. -/
def EXIT_SUCCESS : Nat := 0

/-- The value of a 32-bit `int` after an operation whose exact result is `x`. -/
def wrap32 (x : Int) : Int := (x + 2147483648) % 4294967296 - 2147483648

/-! ## The worker: `runner` -/

/-- Variables of the inner loop of `runner` (lines 51-65). -/
structure LineState where
  /-- Bytes of the file not read yet. -/
  fpLines : List Nat
  /-- The variable `next`, the last result of `fgetc`. -/
  next : Option Nat
  /-- The variable `capacity`. -/
  capacity : Int
  /-- The variable `len`. -/
  len : Int
  /-- The bytes stored in `buffer` so far, in the order of the stores `buffer[len++]`. -/
  buffer : List Nat
deriving DecidableEq, Repr

/-- The loop `while (next != '\n' && next != EOF)` of lines 57-65, every `realloc` being taken
to give a block: the bytes read are stored whatever `capacity` is.  See `readLineChecked` for
the loop in which `realloc` can be refused. -/
def readLine : Nat → LineState → Option LineState
  | 0, _ => none
  | fuel + 1, s =>
    match s.next with
    | none => some s
    | some c =>
      if c = 10 then some s
      else
        let capacity := if s.len ≥ s.capacity then wrap32 (s.capacity * 2) else s.capacity
        let buffer := s.buffer ++ [c]
        let len := wrap32 (s.len + 1)
        let r := fgetc s.fpLines
        readLine fuel
          { fpLines := r.2, next := r.1, capacity := capacity, len := len, buffer := buffer }

/-- Memory from the pointer `bufferLower` on, after the loop of lines 69-72: `tolower` of each
byte of `buffer` before its first NUL, as stored by the loop, and then `after`, the bytes that
memory holds behind them; the loop stores no terminator, and the block has `len` bytes only. -/
def bufferLower (buffer after : List Nat) : List Nat := (cstr buffer).map tolower ++ after

/-- Memory from the pointer `wordLower` on, after lines 74-78: `tolower` of each byte of the
word, and the terminator stored at index `strlen(word)`. -/
def wordLower (word : List Nat) : List Nat := (cstr word).map tolower ++ [0]

/-- The bytes written by `fprintf(stdout, "%s - %s\n", paramsName, buffer)` (line 81). -/
def record (paramsName buffer : List Nat) : List Nat :=
  cstr paramsName ++ bytes " - " ++ cstr buffer ++ bytes "\n"

/-- Lines 66-82 for one line: `buffer` holds the bytes of the line; it is terminated, both
lower-cased copies are made, and the record is written when `strstr`, reading the two C
strings, does not return NULL.  The result is the list of writes to standard output. -/
def testLine (word paramsName buffer after : List Nat) : List (List Nat) :=
  let buffer := buffer ++ [0]
  if (strstr (cstr (bufferLower buffer after)) (cstr (wordLower word))).isSome then
    [record paramsName buffer]
  else []

/-- State of the outer loop of `runner` (lines 47-89). -/
structure Scan where
  /-- Bytes of the file not read yet. -/
  fpLines : List Nat
  /-- The variable `next`. -/
  next : Option Nat
  /-- Writes made to standard output so far. -/
  out : List (List Nat)
  /-- The bytes stored in `buffer` at each line handled so far; kept for the statements about
  lines, not a variable of the program. -/
  lines : List (List Nat)
deriving DecidableEq, Repr

/-- The loop `while (next != EOF)` of lines 49-89. -/
def scanLoop (heap : Nat → List Nat) (word paramsName : List Nat) : Nat → Scan → Option Scan
  | 0, _ => none
  | fuel + 1, s =>
    match s.next with
    | none => some s
    | some c =>
      match readLine (fuel + 1)
          { fpLines := s.fpLines, next := some c, capacity := 5, len := 0, buffer := [] } with
      | none => none
      | some b =>
        let r := fgetc b.fpLines
        scanLoop heap word paramsName fuel
          { fpLines := r.2, next := r.1,
            out := s.out ++ testLine word paramsName b.buffer (heap s.lines.length),
            lines := s.lines ++ [b.buffer] }

/-- How a call of `runner` ends. -/
inductive Ending
  /-- The call `exit(status)`: the whole process ends. -/
  | exit (status : Nat)
  /-- The call `pthread_exit(value)`: the thread ends. -/
  | pthread_exit (value : Nat)
deriving DecidableEq, Repr

/-- What one call of `runner` does. -/
structure Result where
  /-- Writes to standard output, in order. -/
  stdout : List (List Nat)
  /-- Writes to the error stream, in order. -/
  stderr : List (List Nat)
  /-- How the call ends. -/
  ending : Ending
  /-- The lines handled, in order (see `Scan.lines`). -/
  lines : List (List Nat)
deriving DecidableEq, Repr

/-- The function `runner`.  `fopen path` is the content of the file when it can be opened for
reading and `none` when it cannot; `word` is the global variable; `params` is the argument;
`heap` is the memory found behind the lower-cased copies (see `bufferLower`). -/
def runner (heap : Nat → List Nat) (fopen : List Nat → Option (List Nat))
    (word params : List Nat) : Option Result :=
  let paramsName := params
  match fopen (cstr paramsName) with
  | none =>
    some { stdout := [],
           stderr := [bytes "File " ++ cstr paramsName ++ bytes " cannot be opened.\n"],
           ending := Ending.exit EXIT_FAILURE,
           lines := [] }
  | some fpLines =>
    let r := fgetc fpLines
    match scanLoop heap word paramsName (fpLines.length + 1)
        { fpLines := r.2, next := r.1, out := [], lines := [] } with
    | none => none
    | some s =>
      some { stdout := s.out ++ [bytes "\n"],
             stderr := [],
             ending := Ending.pthread_exit 0,
             lines := s.lines }

/-- How a part of the program ends: it returns a value, or the process is killed by the
signal that a store through the null pointer raises. -/
inductive Run (α : Type)
  /-- The part returns `a`. -/
  | returned (a : α)
  /-- The process is killed. -/
  | killed
deriving DecidableEq, Repr

/-- Whether the library function `realloc` returns NULL when it is asked for `size` bytes, `size`
being the `int` value of `capacity + 1`: the size is converted to `size_t`, so a negative one is
a request for more than half of the address space, which is refused, and a request for 0 bytes
frees the block and gives NULL.  Every other request is taken to be granted (the specification
leaves lack of memory out). -/
def reallocFails (size : Int) : Bool := decide (size ≤ 0)

/-- The loop of lines 57-65 with the answer of `realloc`: when `len >= capacity` and `realloc`
gives NULL, `buffer` is NULL and the store `buffer[len++]` of line 63 kills the process. -/
def readLineChecked : Nat → LineState → Option (Run LineState)
  | 0, _ => none
  | fuel + 1, s =>
    match s.next with
    | none => some (Run.returned s)
    | some c =>
      if c = 10 then some (Run.returned s)
      else
        let capacity := if s.len ≥ s.capacity then wrap32 (s.capacity * 2) else s.capacity
        if s.len ≥ s.capacity ∧ reallocFails (wrap32 (capacity + 1)) = true then
          some Run.killed
        else
          let buffer := s.buffer ++ [c]
          let len := wrap32 (s.len + 1)
          let r := fgetc s.fpLines
          readLineChecked fuel
            { fpLines := r.2, next := r.1, capacity := capacity, len := len, buffer := buffer }

/-- The loop of lines 49-89 over `readLineChecked`. -/
def scanLoopChecked (heap : Nat → List Nat) (word paramsName : List Nat) :
    Nat → Scan → Option (Run Scan)
  | 0, _ => none
  | fuel + 1, s =>
    match s.next with
    | none => some (Run.returned s)
    | some c =>
      match readLineChecked (fuel + 1)
          { fpLines := s.fpLines, next := some c, capacity := 5, len := 0, buffer := [] } with
      | none => none
      | some Run.killed => some Run.killed
      | some (Run.returned b) =>
        let r := fgetc b.fpLines
        scanLoopChecked heap word paramsName fuel
          { fpLines := r.2, next := r.1,
            out := s.out ++ testLine word paramsName b.buffer (heap s.lines.length),
            lines := s.lines ++ [b.buffer] }

/-- The function `runner` over `scanLoopChecked`. -/
def runnerChecked (heap : Nat → List Nat) (fopen : List Nat → Option (List Nat))
    (word params : List Nat) : Option (Run Result) :=
  let paramsName := params
  match fopen (cstr paramsName) with
  | none =>
    some (Run.returned
      { stdout := [],
        stderr := [bytes "File " ++ cstr paramsName ++ bytes " cannot be opened.\n"],
        ending := Ending.exit EXIT_FAILURE,
        lines := [] })
  | some fpLines =>
    let r := fgetc fpLines
    match scanLoopChecked heap word paramsName (fpLines.length + 1)
        { fpLines := r.2, next := r.1, out := [], lines := [] } with
    | none => none
    | some Run.killed => some Run.killed
    | some (Run.returned s) =>
      some (Run.returned
        { stdout := s.out ++ [bytes "\n"],
          stderr := [],
          ending := Ending.pthread_exit 0,
          lines := s.lines })

/-- The C string a worker reads at `word`: the block of `strlen(arg)` bytes that `strcpy` filled
with the bytes of `arg` (lines 122-123), and then `behind`, the content of memory behind the
block when the worker reads it.  `strcpy` stored a NUL as the first byte of `behind`; that byte
is outside the block and what is allocated later can overwrite it. -/
def wordRead (arg behind : List Nat) : List Nat := cstr (cstr arg ++ behind)

/-! ## The dispatcher: `main` -/

/-- What `main` does, step by step. -/
inductive Event
  /-- One `fprintf(stdout, ...)`. -/
  | stdout (s : List Nat)
  /-- One `fprintf(stderr, ...)`. -/
  | stderr (s : List Nat)
  /-- The call `exit(status)`. -/
  | exit (status : Nat)
  /-- Lines 122-123, `word = malloc(strlen(arg)); strcpy(word, arg)`: a block of `strlen(arg)`
  bytes is allocated and the bytes of the string `arg` are stored from its start on, with the
  terminator one byte behind its end. -/
  | setWord (arg : List Nat)
  /-- The call `pthread_attr_init(&attr[i])`. -/
  | attr_init (i : Nat)
  /-- The call `pthread_create(&tid[i], &attr[i], runner, arg)`. -/
  | create (i : Nat) (arg : List Nat)
  /-- The call `pthread_join(tid[i], NULL)`. -/
  | join (i : Nat)
  /-- The call `free(word)`. -/
  | freeWord
  /-- The statement `return status`. -/
  | returns (status : Nat)
deriving DecidableEq, Repr

/-- The message of line 111. -/
def usage : List Nat :=
  bytes "Too few or too many arguments. Must have one word and at least one but no more than five files.\n"

/-- The function `main`: `argc` is the length of `argv`. -/
def main (argv : List (List Nat)) : List Event :=
  let argc := argv.length
  [Event.stdout (bytes "\n")] ++
  if argc < 3 ∨ argc > 7 then
    [Event.stderr usage, Event.exit EXIT_FAILURE]
  else
    [Event.setWord (argv.getD 1 [])] ++
    ((List.range' 2 (argc - 2)).map
      (fun i => [Event.attr_init (i - 2), Event.create (i - 2) (argv.getD i [])])).flatten ++
    (List.range' 2 (argc - 2)).map (fun i => Event.join (i - 2)) ++
    [Event.freeWord, Event.returns EXIT_SUCCESS]

/-! ## The specification's notions -/

/-- The lines of a file as the specification words them: the content split at each `'\n'`,
terminators removed; the last piece is a line only when it is not empty. -/
def specLines (content : List Nat) : List (List Nat) :=
  let pieces := content.splitOn 10
  if pieces.getLast? = some [] then pieces.dropLast else pieces

/-- The condition of the specification for a line to be reported: the lower-cased term is a
contiguous part of the lower-cased text. -/
def lowerContains (text term : List Nat) : Prop := term.map tolower <:+: text.map tolower

instance (text term : List Nat) : Decidable (lowerContains text term) :=
  List.decidableInfix _ _

/-- A file system holding one file. -/
def oneFile (path content : List Nat) : List Nat → Option (List Nat) :=
  fun p => if p = path then some content else none

/-- The lines of a file as `runner` takes them off the stream, by recursion on the content:
a `'\n'` closes the (empty) line in front of it, any other byte joins the line that follows
it, and the last byte of the file starts a line of its own. -/
def fileLines : List Nat → List (List Nat)
  | [] => []
  | c :: cs =>
    if c = 10 then [] :: fileLines cs
    else
      match fileLines cs with
      | [] => [[c]]
      | l :: ls => (c :: l) :: ls

/-- What the outer loop writes for the lines `lines`, the first of them being line number `k`
of the file. -/
def scanLines (heap : Nat → List Nat) (word paramsName : List Nat) :
    Nat → List (List Nat) → List (List Nat)
  | _, [] => []
  | k, line :: lines =>
    testLine word paramsName line (heap k) ++ scanLines heap word paramsName (k + 1) lines

/-- The lines among `lines` for which the test of `runner` succeeds, the first of `lines`
being line number `k` of the file. -/
def matchedLines (heap : Nat → List Nat) (word paramsName : List Nat) :
    Nat → List (List Nat) → List (List Nat)
  | _, [] => []
  | k, line :: lines =>
    if testLine word paramsName line (heap k) ≠ [] then
      line :: matchedLines heap word paramsName (k + 1) lines
    else matchedLines heap word paramsName (k + 1) lines

/-- The numbers of the lines among `lines` for which the test of `runner` succeeds, the first
of `lines` being line number `k` of the file. -/
def matchedIndexes (heap : Nat → List Nat) (word paramsName : List Nat) :
    Nat → List (List Nat) → List Nat
  | _, [] => []
  | k, line :: lines =>
    if testLine word paramsName line (heap k) ≠ [] then
      k :: matchedIndexes heap word paramsName (k + 1) lines
    else matchedIndexes heap word paramsName (k + 1) lines

/-- Memory in which a NUL byte follows every lower-cased copy. -/
def terminated : Nat → List Nat := fun _ => [0]

/-- The test of the inner loop on a byte: it is not `'\n'`. -/
def notNewline (c : Nat) : Bool := decide (c ≠ 10)

/-! ## Reading the steps of `main` and the run of one worker -/

/-- The writes to standard output among the steps `events`, in order. -/
def stdoutWrites : List Event → List (List Nat)
  | [] => []
  | Event.stdout s :: events => s :: stdoutWrites events
  | _ :: events => stdoutWrites events

/-- The writes to the error stream among the steps `events`, in order. -/
def stderrWrites : List Event → List (List Nat)
  | [] => []
  | Event.stderr s :: events => s :: stderrWrites events
  | _ :: events => stderrWrites events

/-- The workers created among the steps `events`, in order: the index of the thread identifier
and the argument handed to `runner`. -/
def creates : List Event → List (Nat × List Nat)
  | [] => []
  | Event.create i arg :: events => (i, arg) :: creates events
  | _ :: events => creates events

/-- The indexes of the thread identifiers joined among the steps `events`, in order. -/
def joins : List Event → List Nat
  | [] => []
  | Event.join i :: events => i :: joins events
  | _ :: events => joins events

/-- The strings copied to the global `word` among the steps `events`, in order. -/
def wordsSet : List Event → List (List Nat)
  | [] => []
  | Event.setWord w :: events => w :: wordsSet events
  | _ :: events => wordsSet events

/-- Whether a step is a call of `pthread_create`. -/
def isCreate : Event → Bool
  | Event.create _ _ => true
  | _ => false

/-- Whether `merged` is an interleaving of `xs` and `ys`: every element of `merged` is taken
from the front of `xs` or from the front of `ys`, and both are used up. -/
def interleaves : List (List Nat) → List (List Nat) → List (List Nat) → Bool
  | xs, ys, [] => xs.isEmpty && ys.isEmpty
  | xs, ys, z :: merged =>
    (match xs with
      | [] => false
      | x :: xs1 => x == z && interleaves xs1 ys merged) ||
    (match ys with
      | [] => false
      | y :: ys1 => y == z && interleaves xs ys1 merged)

/-- Whether `out` can be the standard output of a run of the program with one file argument in
which the worker ends by `pthread_exit`: the writes of `main` before `pthread_create`, then an
interleaving of the writes of the worker with the writes of `main` from `pthread_create` on.
The worker runs on the argument given to `pthread_create` and reads at `word` the string that
`main` copied there followed by `behind` (see `wordRead`). -/
def oneWorkerStdout (heap : Nat → List Nat) (behind : List Nat)
    (fopen : List Nat → Option (List Nat)) (argv : List (List Nat)) (out : List (List Nat)) :
    Bool :=
  let events := main argv
  let before := events.takeWhile (fun e => !isCreate e)
  let later := events.dropWhile (fun e => !isCreate e)
  match wordsSet before, creates later with
  | [copied], [(_, arg)] =>
    match runnerChecked heap fopen (wordRead copied behind) arg with
    | some (Run.returned r) =>
      decide (r.ending = Ending.pthread_exit 0) &&
        (out.take (stdoutWrites before).length == stdoutWrites before &&
          interleaves r.stdout (stdoutWrites later) (out.drop (stdoutWrites before).length))
    | _ => false
  | _, _ => false

/-- State of the stream `fpLines` of a call of `runner`. -/
inductive Stream
  /-- The call of `fopen` returned NULL. -/
  | notOpened
  /-- The stream is open and `unread` are its bytes not read yet. -/
  | opened (unread : List Nat)
  /-- The stream has been closed by `fclose`. -/
  | closed
deriving DecidableEq, Repr

/-- The stream `fpLines` at the point where `runner` ends.  On it `runner` calls `fopen`
(line 38) and `fgetc` (lines 47, 64 and 88) and no other function. -/
def runnerStream (heap : Nat → List Nat) (fopen : List Nat → Option (List Nat))
    (word params : List Nat) : Option Stream :=
  match fopen (cstr params) with
  | none => some Stream.notOpened
  | some fpLines =>
    let r := fgetc fpLines
    match scanLoop heap word params (fpLines.length + 1)
        { fpLines := r.2, next := r.1, out := [], lines := [] } with
    | none => none
    | some s => some (Stream.opened s.fpLines)

/-! ## Counters of the line buffer and stores into memory -/

/-- One pass of lines 59-63 on the pair `(capacity, len)`: `capacity` is doubled when
`len >= capacity`, and `len` is incremented by the store `buffer[len++]`. -/
def grow (cl : Int × Int) : Int × Int :=
  (if cl.2 ≥ cl.1 then wrap32 (cl.1 * 2) else cl.1, wrap32 (cl.2 + 1))

/-- The pair `(capacity, len)` after `n` more bytes have been stored, from the pair `cl`. -/
def countersFrom (cl : Int × Int) : Nat → Int × Int
  | 0 => cl
  | n + 1 => countersFrom (grow cl) n

/-- The pair `(capacity, len)` after the first `n` bytes of a line have been stored: each line
starts from `capacity = 5` and `len = 0` (lines 51 and 53). -/
def counters (n : Nat) : Int × Int := countersFrom (5, 0) n

/-- The blocks of memory that `runner` and `main` store into. -/
inductive Block
  /-- The block `buffer` of lines 55 and 61. -/
  | buffer
  /-- The block `bufferLower` of line 69. -/
  | bufferLower
  /-- The block `wordLower` of line 74. -/
  | wordLower
  /-- The block `word` of line 122. -/
  | word
deriving DecidableEq, Repr

/-- One store `block[index] = value`. -/
structure Store where
  /-- The block stored into. -/
  block : Block
  /-- The index of the byte stored. -/
  index : Nat
  /-- The byte stored. -/
  value : Nat
deriving DecidableEq, Repr

/-- The stores `dst[i] = f(src[i])` of a loop `for (i = 0; src[i]; i++)`: one for each byte of
the C string `src`. -/
def copyStores (dst : Block) (f : Nat → Nat) (src : List Nat) : List Store :=
  (List.range (strlen src)).map (fun i => { block := dst, index := i, value := f (src.getD i 0) })

/-- The stores of one pass of the outer loop of `runner` on a line whose bytes are `line`, in
order: `buffer[len++] = (char) next` for each byte (line 63), `buffer[len] = 0` (line 67), the
loop into `bufferLower` (lines 70-72), the loop into `wordLower` (lines 75-77) and
`wordLower[strlen(word)] = 0` (line 78). -/
def lineStores (word line : List Nat) : List Store :=
  (List.range line.length).map
      (fun i => { block := Block.buffer, index := i, value := line.getD i 0 }) ++
    [{ block := Block.buffer, index := line.length, value := 0 }] ++
    copyStores Block.bufferLower tolower (line ++ [0]) ++
    copyStores Block.wordLower tolower word ++
    [{ block := Block.wordLower, index := strlen word, value := 0 }]

/-- The stores of `strcpy(word, argv[1])` (line 123): the bytes of the string and its
terminator. -/
def strcpyStores (src : List Nat) : List Store :=
  copyStores Block.word id src ++ [{ block := Block.word, index := strlen src, value := 0 }]

/-- The size in bytes asked of `malloc` or `realloc` for each block, for the term `word` and a
line of bytes `line`: `capacity + 1` (lines 55, 61), `len` (line 69), `strlen(word)` (line 74)
and `strlen(argv[1])` (line 122). -/
def allocated (word line : List Nat) : Block → Int
  | Block.buffer => (counters line.length).1 + 1
  | Block.bufferLower => (counters line.length).2
  | Block.wordLower => strlen word
  | Block.word => strlen word

/-! ## Lemmas on the library functions -/

theorem tolower_eq_zero (c : Nat) : tolower c = 0 ↔ c = 0 := by
  unfold tolower
  split <;> omega

theorem tolower_idem (c : Nat) : tolower (tolower c) = tolower c := by
  simp only [tolower]
  split_ifs <;> omega

theorem cstr_nil : cstr [] = [] := rfl

theorem cstr_cons (c : Nat) (l : List Nat) :
    cstr (c :: l) = if c = 0 then [] else c :: cstr l := by
  unfold cstr
  by_cases h : c = 0 <;> simp [List.takeWhile, h]

theorem cstr_append_nul (l t : List Nat) : cstr (l ++ 0 :: t) = cstr l := by
  induction l with
  | nil => simp [cstr_cons, cstr_nil]
  | cons c l ih => simp [cstr_cons, ih]

theorem cstr_eq_self (l : List Nat) (h : 0 ∉ l) : cstr l = l := by
  induction l with
  | nil => rfl
  | cons c l ih =>
    have hc : c ≠ 0 := fun e => h (by simp [e])
    have hl : 0 ∉ l := fun e => h (List.mem_cons_of_mem _ e)
    simp [cstr_cons, hc, ih hl]

theorem zero_not_mem_cstr (l : List Nat) : 0 ∉ cstr l := by
  induction l with
  | nil => simp [cstr_nil]
  | cons c l ih =>
    rw [cstr_cons]
    split
    · simp
    · rename_i hc
      intro hm
      rcases List.mem_cons.1 hm with e | e
      · exact hc e.symm
      · exact ih e

theorem cstr_idem (l : List Nat) : cstr (cstr l) = cstr l :=
  cstr_eq_self _ (zero_not_mem_cstr l)

theorem cstr_map_tolower (l : List Nat) : cstr (l.map tolower) = (cstr l).map tolower := by
  induction l with
  | nil => rfl
  | cons c l ih =>
    simp only [List.map_cons, cstr_cons, tolower_eq_zero]
    split
    · rfl
    · simp [ih]

theorem cstr_append_of_not_mem (u v : List Nat) (h : 0 ∉ u) : cstr (u ++ v) = u ++ cstr v := by
  induction u with
  | nil => rfl
  | cons c u ih =>
    have hc : c ≠ 0 := fun e => h (by simp [e])
    have hu : 0 ∉ u := fun e => h (List.mem_cons_of_mem _ e)
    simp [cstr_cons, hc, ih hu]

theorem startsWith_iff (hay needle : List Nat) :
    startsWith hay needle = true ↔ ∃ t, hay = needle ++ t := by
  induction needle generalizing hay with
  | nil => simp [startsWith]
  | cons b needle ih =>
    cases hay with
    | nil => simp [startsWith]
    | cons a hay =>
      simp only [startsWith, Bool.and_eq_true, beq_iff_eq, ih, List.cons_append, List.cons.injEq]
      constructor
      · rintro ⟨rfl, t, rfl⟩
        exact ⟨t, rfl, rfl⟩
      · rintro ⟨t, rfl, rfl⟩
        exact ⟨rfl, t, rfl⟩

theorem strstr_isSome_iff (hay needle : List Nat) :
    (strstr hay needle).isSome = true ↔ needle <:+: hay := by
  induction hay with
  | nil =>
    unfold strstr
    by_cases h : startsWith [] needle = true
    · rw [if_pos h]
      obtain ⟨t, ht⟩ := (startsWith_iff _ _).1 h
      exact ⟨fun _ => ⟨[], t, by simpa using ht.symm⟩, fun _ => rfl⟩
    · rw [if_neg h]
      constructor
      · intro hf
        cases hf
      · rintro ⟨s, t, hst⟩
        exfalso
        apply h
        rw [startsWith_iff]
        refine ⟨[], ?_⟩
        simp only [List.append_eq_nil] at hst
        simp [hst.1.2]
  | cons c hay ih =>
    unfold strstr
    by_cases h : startsWith (c :: hay) needle = true
    · rw [if_pos h]
      obtain ⟨t, ht⟩ := (startsWith_iff _ _).1 h
      exact ⟨fun _ => ⟨[], t, by simpa using ht.symm⟩, fun _ => rfl⟩
    · rw [if_neg h, ih]
      constructor
      · rintro ⟨s, t, hst⟩
        exact ⟨c :: s, t, by simp [← hst]⟩
      · rintro ⟨s, t, hst⟩
        cases s with
        | nil =>
          exfalso
          apply h
          rw [startsWith_iff]
          exact ⟨t, by simpa using hst.symm⟩
        | cons a s =>
          simp only [List.cons_append, List.cons.injEq] at hst
          exact ⟨s, t, hst.2⟩

/-! ## The loops of `runner` -/

theorem fgetc_snd (p : List Nat) : (fgetc p).2 = p.tail := by
  cases p <;> rfl

theorem fgetc_nil : fgetc [] = (none, []) := rfl

theorem fgetc_cons (c : Nat) (p : List Nat) : fgetc (c :: p) = (some c, p) := rfl

theorem readLine_eof (fuel : Nat) (s : LineState) (h : s.next = none) :
    readLine (fuel + 1) s = some s := by
  simp [readLine, h]

theorem readLine_newline (fuel : Nat) (s : LineState) (h : s.next = some 10) :
    readLine (fuel + 1) s = some s := by
  simp [readLine, h]

theorem readLine_step (fuel : Nat) (s : LineState) (c : Nat) (h : s.next = some c)
    (hc : c ≠ 10) :
    readLine (fuel + 1) s =
      readLine fuel
        { fpLines := (fgetc s.fpLines).2, next := (fgetc s.fpLines).1,
          capacity := if s.len ≥ s.capacity then wrap32 (s.capacity * 2) else s.capacity,
          len := wrap32 (s.len + 1), buffer := s.buffer ++ [c] } := by
  simp [readLine, h, hc]

theorem fileLines_cons_eq (c : Nat) (cs : List Nat) :
    fileLines (c :: cs) =
      (c :: cs).takeWhile notNewline :: fileLines ((c :: cs).dropWhile notNewline).tail := by
  induction cs generalizing c with
  | nil =>
    by_cases h : c = 10 <;> simp [fileLines, notNewline, List.takeWhile, List.dropWhile, h]
  | cons d ds ih =>
    by_cases h : c = 10
    · simp [fileLines, notNewline, List.takeWhile, List.dropWhile, h]
    · have hd := ih d
      rw [fileLines, if_neg h, hd]
      simp [notNewline, List.takeWhile, List.dropWhile, h]

theorem readLine_fgetc (p : List Nat) :
    ∀ (fuel : Nat) (capacity len : Int) (buffer : List Nat), p.length < fuel →
      ∃ capacity1 len1,
        readLine fuel
            { fpLines := (fgetc p).2, next := (fgetc p).1, capacity := capacity, len := len,
              buffer := buffer } =
          some
            { fpLines := (fgetc (p.dropWhile notNewline)).2,
              next := (fgetc (p.dropWhile notNewline)).1,
              capacity := capacity1,
              len := len1,
              buffer := buffer ++ p.takeWhile notNewline } := by
  induction p with
  | nil =>
    intro fuel capacity len buffer hf
    obtain ⟨f, rfl⟩ : ∃ f, fuel = f + 1 := ⟨fuel - 1, by omega⟩
    exact ⟨capacity, len, by rw [readLine_eof _ _ rfl]; simp⟩
  | cons c p ih =>
    intro fuel capacity len buffer hf
    obtain ⟨f, rfl⟩ : ∃ f, fuel = f + 1 := ⟨fuel - 1, by omega⟩
    have hp : p.length < f := by simpa using hf
    by_cases h : c = 10
    · refine ⟨capacity, len, ?_⟩
      rw [readLine_newline _ _ (by rw [fgetc_cons, h])]
      simp [notNewline, List.takeWhile, List.dropWhile, h]
    · obtain ⟨c1, l1, hc1⟩ :=
        ih f (if len ≥ capacity then wrap32 (capacity * 2) else capacity) (wrap32 (len + 1))
          (buffer ++ [c]) hp
      refine ⟨c1, l1, ?_⟩
      rw [readLine_step f _ c (by rw [fgetc_cons]) h]
      simp only [fgetc_cons]
      rw [hc1]
      simp [notNewline, List.takeWhile, List.dropWhile, h]

theorem scanLoop_fgetc (heap : Nat → List Nat) (word paramsName : List Nat) :
    ∀ (fuel : Nat) (p : List Nat) (out lines : List (List Nat)), p.length < fuel →
      scanLoop heap word paramsName fuel
          { fpLines := (fgetc p).2, next := (fgetc p).1, out := out, lines := lines } =
        some
          { fpLines := [], next := none,
            out := out ++ scanLines heap word paramsName lines.length (fileLines p),
            lines := lines ++ fileLines p } := by
  intro fuel
  induction fuel with
  | zero => intro p out lines hf; omega
  | succ f ih =>
    intro p out lines hf
    cases p with
    | nil => simp [scanLoop, fgetc, fileLines, scanLines]
    | cons c rest =>
      obtain ⟨c1, l1, hc1⟩ := readLine_fgetc (c :: rest) (f + 1) 5 0 [] hf
      have hlen : ((c :: rest).dropWhile notNewline).tail.length < f := by
        have h1 := (List.dropWhile_suffix (l := c :: rest) notNewline).length_le
        have h2 := List.length_tail ((c :: rest).dropWhile notNewline)
        simp only [List.length_cons] at h1 hf
        omega
      have hrec := ih ((c :: rest).dropWhile notNewline).tail
        (out ++ testLine word paramsName ((c :: rest).takeWhile notNewline) (heap lines.length))
        (lines ++ [(c :: rest).takeWhile notNewline]) hlen
      have hstep : scanLoop heap word paramsName (f + 1)
          { fpLines := (fgetc (c :: rest)).2, next := (fgetc (c :: rest)).1, out := out,
            lines := lines } =
          scanLoop heap word paramsName f
            { fpLines := (fgetc ((c :: rest).dropWhile notNewline).tail).2,
              next := (fgetc ((c :: rest).dropWhile notNewline).tail).1,
              out := out ++
                testLine word paramsName ((c :: rest).takeWhile notNewline) (heap lines.length),
              lines := lines ++ [(c :: rest).takeWhile notNewline] } := by
        have hc2 : readLine (f + 1)
            { fpLines := rest, next := some c, capacity := 5, len := 0, buffer := [] } = _ := hc1
        simp only [scanLoop, fgetc]
        rw [hc2]
        simp [fgetc_snd]
      rw [hstep, hrec, fileLines_cons_eq]
      simp [List.append_assoc, scanLines]

/-- On a file that can be opened, `runner` ends by `pthread_exit` having written, line after
line, what `testLine` writes for the line, and then the separator. -/
theorem runner_opened (heap : Nat → List Nat) (fopen : List Nat → Option (List Nat))
    (word params content : List Nat) (h : fopen (cstr params) = some content) :
    runner heap fopen word params =
      some { stdout := scanLines heap word params 0 (fileLines content) ++ [bytes "\n"],
             stderr := [],
             ending := Ending.pthread_exit 0,
             lines := fileLines content } := by
  have hs := scanLoop_fgetc heap word params (content.length + 1) content [] []
    (Nat.lt_succ_self _)
  simp only [runner, h, hs]
  simp

/-- On a file that cannot be opened, `runner` writes the diagnostic and calls `exit`. -/
theorem runner_not_opened (heap : Nat → List Nat) (fopen : List Nat → Option (List Nat))
    (word params : List Nat) (h : fopen (cstr params) = none) :
    runner heap fopen word params =
      some { stdout := [],
             stderr := [bytes "File " ++ cstr params ++ bytes " cannot be opened.\n"],
             ending := Ending.exit EXIT_FAILURE,
             lines := [] } := by
  simp only [runner, h]

/-! ## Lines of the code and lines of the specification -/

theorem splitOn_newline_cons (c : Nat) (cs : List Nat) :
    (c :: cs).splitOn 10 =
      if c = 10 then [] :: cs.splitOn 10 else (cs.splitOn 10).modifyHead (List.cons c) := by
  simp only [List.splitOn, List.splitOnP_cons, beq_iff_eq]

theorem splitOn_newline_ne_nil (cs : List Nat) : cs.splitOn 10 ≠ [] := by
  simp only [List.splitOn]
  exact List.splitOnP_ne_nil _ _

theorem specLines_eq_fileLines (content : List Nat) : specLines content = fileLines content := by
  induction content with
  | nil => simp [specLines, fileLines, List.splitOn_nil]
  | cons c cs ih =>
    have hne := splitOn_newline_ne_nil cs
    unfold specLines at ih ⊢
    simp only [splitOn_newline_cons] at ih ⊢
    obtain ⟨h, T, hT⟩ : ∃ h T, cs.splitOn 10 = h :: T := by
      cases hs : cs.splitOn 10 with
      | nil => exact absurd hs hne
      | cons h T => exact ⟨h, T, rfl⟩
    rw [hT] at ih ⊢
    by_cases hc : c = 10
    · simp only [hc, if_true, fileLines]
      rw [← ih]
      simp only [List.getLast?_cons_cons, List.dropLast_cons₂]
      split <;> rfl
    · simp only [hc, if_false, fileLines, List.modifyHead_cons]
      rw [← ih]
      cases T with
      | nil =>
        by_cases hh : h = [] <;> simp [hh]
      | cons b T =>
        simp only [List.getLast?_cons_cons, List.dropLast_cons₂]
        split <;> rfl

/-! ## The test of one line -/

theorem zero_not_mem_map_tolower_cstr (l : List Nat) : 0 ∉ (cstr l).map tolower := by
  intro h
  obtain ⟨x, hx, hx0⟩ := List.mem_map.1 h
  rw [(tolower_eq_zero x).1 hx0] at hx
  exact zero_not_mem_cstr l hx

theorem cstr_bufferLower (line after : List Nat) :
    cstr (bufferLower (line ++ [0]) after) = (cstr line).map tolower ++ cstr after := by
  unfold bufferLower
  rw [cstr_append_nul line [], cstr_append_of_not_mem _ _ (zero_not_mem_map_tolower_cstr line)]

theorem cstr_wordLower (word : List Nat) : cstr (wordLower word) = (cstr word).map tolower := by
  unfold wordLower
  rw [cstr_append_nul, cstr_map_tolower, cstr_idem]

theorem wordLower_of_map_eq (t1 t2 : List Nat) (h : t1.map tolower = t2.map tolower) :
    wordLower t1 = wordLower t2 := by
  unfold wordLower
  rw [← cstr_map_tolower, ← cstr_map_tolower, h]

theorem testLine_eq (word paramsName line after : List Nat) :
    testLine word paramsName line after =
      if (cstr word).map tolower <:+: (cstr line).map tolower ++ cstr after then
        [cstr paramsName ++ bytes " - " ++ cstr line ++ bytes "\n"]
      else [] := by
  unfold testLine
  simp only [cstr_bufferLower, cstr_wordLower, record, cstr_append_nul line [],
    strstr_isSome_iff]

theorem testLine_eq_record_of_ne_nil (word paramsName line after : List Nat)
    (h : testLine word paramsName line after ≠ []) :
    testLine word paramsName line after = [record paramsName line] := by
  rw [testLine_eq] at h ⊢
  split at h
  · rename_i hc
    rw [if_pos hc]
    rfl
  · exact absurd rfl h

theorem cstr_of_head_nul (after : List Nat) (h : after.head? = some 0) : cstr after = [] := by
  cases after with
  | nil => rfl
  | cons a t =>
    simp only [List.head?_cons, Option.some.injEq] at h
    simp [cstr_cons, h]

theorem scanLines_eq_map_matchedLines (heap : Nat → List Nat) (word paramsName : List Nat)
    (lines : List (List Nat)) :
    ∀ k, scanLines heap word paramsName k lines =
      (matchedLines heap word paramsName k lines).map (record paramsName) := by
  induction lines with
  | nil => intro k; rfl
  | cons l ls ih =>
    intro k
    simp only [scanLines, matchedLines, ih]
    by_cases h : testLine word paramsName l (heap k) = []
    · simp [h]
    · rw [if_pos h, testLine_eq_record_of_ne_nil word paramsName l (heap k) h]
      rfl

theorem matchedIndexes_bounds (heap : Nat → List Nat) (word paramsName : List Nat)
    (lines : List (List Nat)) :
    ∀ k, ∀ i ∈ matchedIndexes heap word paramsName k lines, k ≤ i ∧ i < k + lines.length := by
  induction lines with
  | nil => intro k i hi; cases hi
  | cons l ls ih =>
    intro k i hi
    simp only [matchedIndexes] at hi
    simp only [List.length_cons]
    split at hi
    · rcases List.mem_cons.1 hi with h | h
      · omega
      · have := ih (k + 1) i h
        omega
    · have := ih (k + 1) i hi
      omega

theorem matchedIndexes_pairwise (heap : Nat → List Nat) (word paramsName : List Nat)
    (lines : List (List Nat)) :
    ∀ k, (matchedIndexes heap word paramsName k lines).Pairwise (fun i j => i < j) := by
  induction lines with
  | nil => intro k; exact List.Pairwise.nil
  | cons l ls ih =>
    intro k
    simp only [matchedIndexes]
    split
    · refine List.Pairwise.cons (fun j hj => ?_) (ih (k + 1))
      have := matchedIndexes_bounds heap word paramsName ls (k + 1) j hj
      omega
    · exact ih (k + 1)

theorem scanLines_eq_map_matchedIndexes (heap : Nat → List Nat) (word paramsName : List Nat)
    (lines : List (List Nat)) :
    ∀ k, scanLines heap word paramsName k lines =
      (matchedIndexes heap word paramsName k lines).map
        (fun i => record paramsName (lines.getD (i - k) [])) := by
  induction lines with
  | nil => intro k; rfl
  | cons l ls ih =>
    intro k
    have htail : (matchedIndexes heap word paramsName (k + 1) ls).map
          (fun i => record paramsName (ls.getD (i - (k + 1)) [])) =
        (matchedIndexes heap word paramsName (k + 1) ls).map
          (fun i => record paramsName ((l :: ls).getD (i - k) [])) := by
      apply List.map_congr_left
      intro i hi
      have hb := matchedIndexes_bounds heap word paramsName ls (k + 1) i hi
      obtain ⟨d, hd⟩ : ∃ d, i - k = d + 1 := ⟨i - k - 1, by omega⟩
      have hd2 : i - (k + 1) = d := by omega
      rw [hd, hd2]
      rfl
    simp only [scanLines, matchedIndexes, ih, htail]
    by_cases h : testLine word paramsName l (heap k) = []
    · simp [h]
    · rw [if_pos h, testLine_eq_record_of_ne_nil word paramsName l (heap k) h]
      simp

/-- C2, as stated, fails on a matching line that holds a NUL byte: the file of the single line
`cat\0dog` is searched for `cat`; the line matches, and the record written is `f - cat` and a
newline, not the path, ` - `, the seven bytes of the line and a newline. -/
theorem record_is_path_dash_line_counterexample :
    runner terminated (oneFile (bytes "f") [99, 97, 116, 0, 100, 111, 103, 10]) (bytes "cat")
        (bytes "f") =
        some { stdout := [bytes "f - cat\n", bytes "\n"], stderr := [],
               ending := Ending.pthread_exit 0, lines := [[99, 97, 116, 0, 100, 111, 103]] } ∧
      bytes "f - cat\n" ≠
        bytes "f" ++ bytes " - " ++ [99, 97, 116, 0, 100, 111, 103] ++ bytes "\n" := by
  decide

/-- C2, amended: for every matching line, the record the worker writes to standard output is
exactly the file path as given, then the three characters ` - `, then the original line text
(not the lower-cased copy, without the line terminator) up to its first NUL byte, which is
the whole line byte for byte when the line holds no NUL byte, then one newline. -/
theorem record_is_path_dash_line (heap : Nat → List Nat)
    (fopen : List Nat → Option (List Nat)) (word params content : List Nat)
    (hopen : fopen (cstr params) = some content) (hpath : 0 ∉ params) :
    ∃ r, runner heap fopen word params = some r ∧
      r.stdout =
        (matchedLines heap word params 0 r.lines).map
          (fun line => params ++ bytes " - " ++ cstr line ++ bytes "\n") ++ [bytes "\n"] ∧
      (∀ line after, testLine word params line after ≠ [] →
        testLine word params line after = [params ++ bytes " - " ++ cstr line ++ bytes "\n"] ∧
        (0 ∉ line →
          testLine word params line after = [params ++ bytes " - " ++ line ++ bytes "\n"])) := by
  have hp := cstr_eq_self params hpath
  have hrec : record params = fun line => params ++ bytes " - " ++ cstr line ++ bytes "\n" := by
    funext line
    simp only [record, hp]
  refine ⟨_, runner_opened heap fopen word params content hopen, ?_, ?_⟩
  · show _ ++ _ = _ ++ _
    rw [scanLines_eq_map_matchedLines, hrec]
  · intro line after hline
    have he : testLine word params line after =
        [params ++ bytes " - " ++ cstr line ++ bytes "\n"] := by
      rw [testLine_eq_record_of_ne_nil word params line after hline, hrec]
    refine ⟨he, fun h0 => ?_⟩
    rw [he, cstr_eq_self line h0]

/-- C2, amended, at the file `The cat sat\nDog ran\n` searched for `Cat`. -/
theorem record_is_path_dash_line_witness :
    oneFile (bytes "A") (bytes "The cat sat\nDog ran\n") (cstr (bytes "A")) =
        some (bytes "The cat sat\nDog ran\n") ∧
      0 ∉ bytes "A" ∧
      ∃ r, runner terminated (oneFile (bytes "A") (bytes "The cat sat\nDog ran\n"))
          (bytes "Cat") (bytes "A") = some r ∧
        r.stdout =
          (matchedLines terminated (bytes "Cat") (bytes "A") 0 r.lines).map
            (fun line => bytes "A" ++ bytes " - " ++ cstr line ++ bytes "\n") ++ [bytes "\n"] ∧
        (∀ line after, testLine (bytes "Cat") (bytes "A") line after ≠ [] →
          testLine (bytes "Cat") (bytes "A") line after =
              [bytes "A" ++ bytes " - " ++ cstr line ++ bytes "\n"] ∧
          (0 ∉ line →
            testLine (bytes "Cat") (bytes "A") line after =
              [bytes "A" ++ bytes " - " ++ line ++ bytes "\n"])) :=
  ⟨by decide, by decide,
    record_is_path_dash_line terminated (oneFile (bytes "A") (bytes "The cat sat\nDog ran\n"))
      (bytes "Cat") (bytes "A") (bytes "The cat sat\nDog ran\n") (by decide) (by decide)⟩

/-- C6: for a file with empty content and every search term, the worker writes no record and
exactly one blank line, the separator, to standard output. -/
theorem runner_empty_file (heap : Nat → List Nat) (fopen : List Nat → Option (List Nat))
    (word params : List Nat) (hopen : fopen (cstr params) = some []) :
    runner heap fopen word params =
      some { stdout := [bytes "\n"], stderr := [], ending := Ending.pthread_exit 0,
             lines := [] } := by
  rw [runner_opened heap fopen word params [] hopen]
  rfl

/-- C6 at the empty file `f`, searched for `cat`. -/
theorem runner_empty_file_witness :
    oneFile (bytes "f") [] (cstr (bytes "f")) = some [] ∧
      runner terminated (oneFile (bytes "f") []) (bytes "cat") (bytes "f") =
        some { stdout := [[10]], stderr := [], ending := Ending.pthread_exit 0, lines := [] } :=
  ⟨by decide,
    runner_empty_file terminated (oneFile (bytes "f") []) (bytes "cat") (bytes "f")
      (by decide)⟩

/-- C8: the result of the worker depends on the term only through its ASCII-lower-cased form:
two terms that are equal after mapping `'A'..'Z'` to `'a'..'z'` give the same result on every
file, and the lower-cased term gives the same result as the term itself. -/
theorem runner_depends_on_lowered_term (heap : Nat → List Nat)
    (fopen : List Nat → Option (List Nat)) (params : List Nat) :
    (∀ t1 t2 : List Nat, t1.map tolower = t2.map tolower →
        runner heap fopen t1 params = runner heap fopen t2 params) ∧
      (∀ t : List Nat, runner heap fopen (t.map tolower) params = runner heap fopen t params) := by
  have key : ∀ t1 t2 : List Nat, t1.map tolower = t2.map tolower →
      runner heap fopen t1 params = runner heap fopen t2 params := by
    intro t1 t2 h
    have ht : testLine t1 params = testLine t2 params := by
      funext line after
      unfold testLine
      rw [wordLower_of_map_eq t1 t2 h]
    have hs : scanLines heap t1 params = scanLines heap t2 params := by
      funext k lines
      induction lines generalizing k with
      | nil => rfl
      | cons l ls ih => simp only [scanLines, ht, ih]
    cases hf : fopen (cstr params) with
    | none =>
      rw [runner_not_opened heap fopen t1 params hf, runner_not_opened heap fopen t2 params hf]
    | some content =>
      rw [runner_opened heap fopen t1 params content hf,
        runner_opened heap fopen t2 params content hf, hs]
  refine ⟨key, fun t => key _ _ ?_⟩
  simp [tolower_idem]

/-- C8 at the terms `CAT` and `cAt` on the file `The cat sat\nDog ran\n`. -/
theorem runner_depends_on_lowered_term_witness :
    (bytes "CAT").map tolower = (bytes "cAt").map tolower ∧
      runner terminated (oneFile (bytes "A") (bytes "The cat sat\nDog ran\n")) (bytes "CAT")
          (bytes "A") =
        runner terminated (oneFile (bytes "A") (bytes "The cat sat\nDog ran\n")) (bytes "cAt")
          (bytes "A") :=
  ⟨by decide,
    (runner_depends_on_lowered_term terminated
      (oneFile (bytes "A") (bytes "The cat sat\nDog ran\n")) (bytes "A")).1
      (bytes "CAT") (bytes "cAt") (by decide)⟩

/-- C9: a worker whose file cannot be opened writes one diagnostic to the error stream, which
contains the path, writes nothing (no record, no separator) to standard output and ends the
whole process by `exit` with the failure status, which is not zero; this holds whatever the
other files are and whether or not they can be opened. -/
theorem runner_open_failure (heap : Nat → List Nat) (fopen : List Nat → Option (List Nat))
    (word params : List Nat) (hopen : fopen (cstr params) = none) :
    ∃ r, runner heap fopen word params = some r ∧
      r.stderr = [bytes "File " ++ cstr params ++ bytes " cannot be opened.\n"] ∧
      (∀ d ∈ r.stderr, cstr params <:+: d) ∧
      r.stdout = [] ∧
      r.ending = Ending.exit EXIT_FAILURE ∧
      EXIT_FAILURE ≠ 0 := by
  refine ⟨_, runner_not_opened heap fopen word params hopen, rfl, ?_, rfl, rfl, by decide⟩
  intro d hd
  rw [List.mem_singleton.1 hd]
  exact ⟨bytes "File ", bytes " cannot be opened.\n", rfl⟩

/-- C9 at the path `missing` where the only file that can be opened is `A`. -/
theorem runner_open_failure_witness :
    oneFile (bytes "A") (bytes "cat\n") (cstr (bytes "missing")) = none ∧
      ∃ r, runner terminated (oneFile (bytes "A") (bytes "cat\n")) (bytes "cat")
          (bytes "missing") = some r ∧
        r.stderr = [bytes "File " ++ cstr (bytes "missing") ++ bytes " cannot be opened.\n"] ∧
        (∀ d ∈ r.stderr, cstr (bytes "missing") <:+: d) ∧
        r.stdout = [] ∧
        r.ending = Ending.exit EXIT_FAILURE ∧
        EXIT_FAILURE ≠ 0 :=
  ⟨by decide,
    runner_open_failure terminated (oneFile (bytes "A") (bytes "cat\n")) (bytes "cat")
      (bytes "missing") (by decide)⟩

/-! ## Claims on the dispatcher -/

theorem main_of_bad_count (argv : List (List Nat)) (h : argv.length < 3 ∨ argv.length > 7) :
    main argv = [Event.stdout (bytes "\n"), Event.stderr usage, Event.exit EXIT_FAILURE] := by
  simp only [main, if_pos h]
  rfl

theorem main_of_good_count (argv : List (List Nat)) (h : ¬ (argv.length < 3 ∨ argv.length > 7)) :
    main argv =
      [Event.stdout (bytes "\n")] ++
        ([Event.setWord (argv.getD 1 [])] ++
          ((List.range' 2 (argv.length - 2)).map
            (fun i => [Event.attr_init (i - 2), Event.create (i - 2) (argv.getD i [])])).flatten ++
          (List.range' 2 (argv.length - 2)).map (fun i => Event.join (i - 2)) ++
          [Event.freeWord, Event.returns EXIT_SUCCESS]) := by
  simp only [main, if_neg h]

/-- C10: `main` signals a usage error (the message on the error stream, `exit` with the failure
status, no worker created) if and only if the number of file arguments is 0 or more than 5,
that is `argc < 3` or `argc > 7`; with one term and one to five file paths it writes nothing
to the error stream, does not call `exit`, and creates a worker for each file path. -/
theorem main_usage_error_iff (argv : List (List Nat)) :
    (main argv = [Event.stdout (bytes "\n"), Event.stderr usage, Event.exit EXIT_FAILURE] ↔
        argv.length < 3 ∨ argv.length > 7) ∧
      (Event.stderr usage ∈ main argv ↔ argv.length < 3 ∨ argv.length > 7) ∧
      (Event.exit EXIT_FAILURE ∈ main argv ↔ argv.length < 3 ∨ argv.length > 7) ∧
      (((argv.drop 2).length = 0 ∨ (argv.drop 2).length > 5) ↔
        (argv.length < 3 ∨ argv.length > 7)) ∧
      (argv.length < 3 ∨ argv.length > 7 → ∀ i arg, Event.create i arg ∉ main argv) ∧
      (3 ≤ argv.length → argv.length ≤ 7 →
        (∀ s, Event.stderr s ∉ main argv) ∧ (∀ status, Event.exit status ∉ main argv) ∧
        ∀ i, 2 ≤ i → i < argv.length →
          Event.create (i - 2) (argv.getD i []) ∈ main argv) ∧
      EXIT_FAILURE ≠ 0 := by
  have hgood : ¬ (argv.length < 3 ∨ argv.length > 7) →
      (∀ s, Event.stderr s ∉ main argv) ∧ (∀ status, Event.exit status ∉ main argv) ∧
        ∀ i, 2 ≤ i → i < argv.length →
          Event.create (i - 2) (argv.getD i []) ∈ main argv := by
    intro h
    rw [main_of_good_count argv h]
    refine ⟨fun s => by simp, fun status => by simp, fun i h2 hi => ?_⟩
    simp only [List.mem_append, List.mem_flatten, List.mem_map, List.mem_range'_1]
    refine Or.inr (Or.inl (Or.inl (Or.inr ?_)))
    exact ⟨_, ⟨i, ⟨h2, by omega⟩, rfl⟩, by simp⟩
  by_cases h : argv.length < 3 ∨ argv.length > 7
  · have hm := main_of_bad_count argv h
    refine ⟨⟨fun _ => h, fun _ => hm⟩, ⟨fun _ => h, fun _ => ?_⟩, ⟨fun _ => h, fun _ => ?_⟩,
      ?_, ?_, ?_, by decide⟩
    · rw [hm]; simp
    · rw [hm]; simp
    · simp only [List.length_drop]; omega
    · intro _ i arg
      rw [hm]; simp
    · intro h3 h7
      omega
  · have hg := hgood h
    refine ⟨⟨fun hm => ?_, fun h1 => absurd h1 h⟩, ⟨fun hm => ?_, fun h1 => absurd h1 h⟩,
      ⟨fun hm => ?_, fun h1 => absurd h1 h⟩, ?_, fun h1 => absurd h1 h, fun _ _ => hg,
      by decide⟩
    · exact absurd (by rw [hm]; simp) (hg.1 usage)
    · exact absurd hm (hg.1 usage)
    · exact absurd hm (hg.2.1 EXIT_FAILURE)
    · simp only [List.length_drop]; omega

/-- C10 at an argument vector with the program name, one term and two file paths. -/
theorem main_usage_error_iff_witness :
    3 ≤ [bytes "find2", bytes "cat", bytes "A", bytes "B"].length ∧
      [bytes "find2", bytes "cat", bytes "A", bytes "B"].length ≤ 7 ∧
      (∀ s, Event.stderr s ∉ main [bytes "find2", bytes "cat", bytes "A", bytes "B"]) ∧
      (∀ status, Event.exit status ∉ main [bytes "find2", bytes "cat", bytes "A", bytes "B"]) ∧
      ∀ i, 2 ≤ i → i < [bytes "find2", bytes "cat", bytes "A", bytes "B"].length →
        Event.create (i - 2) ([bytes "find2", bytes "cat", bytes "A", bytes "B"].getD i []) ∈
          main [bytes "find2", bytes "cat", bytes "A", bytes "B"] :=
  ⟨by decide, by decide,
    (main_usage_error_iff [bytes "find2", bytes "cat", bytes "A", bytes "B"]).2.2.2.2.2.1
      (by decide) (by decide)⟩

/-! ## The steps of `main` -/

theorem stdoutWrites_append (l1 l2 : List Event) :
    stdoutWrites (l1 ++ l2) = stdoutWrites l1 ++ stdoutWrites l2 := by
  induction l1 with
  | nil => rfl
  | cons e l1 ih => cases e <;> simp [stdoutWrites, ih]

theorem stderrWrites_append (l1 l2 : List Event) :
    stderrWrites (l1 ++ l2) = stderrWrites l1 ++ stderrWrites l2 := by
  induction l1 with
  | nil => rfl
  | cons e l1 ih => cases e <;> simp [stderrWrites, ih]

theorem creates_append (l1 l2 : List Event) : creates (l1 ++ l2) = creates l1 ++ creates l2 := by
  induction l1 with
  | nil => rfl
  | cons e l1 ih => cases e <;> simp [creates, ih]

theorem joins_append (l1 l2 : List Event) : joins (l1 ++ l2) = joins l1 ++ joins l2 := by
  induction l1 with
  | nil => rfl
  | cons e l1 ih => cases e <;> simp [joins, ih]

theorem wordsSet_append (l1 l2 : List Event) :
    wordsSet (l1 ++ l2) = wordsSet l1 ++ wordsSet l2 := by
  induction l1 with
  | nil => rfl
  | cons e l1 ih => cases e <;> simp [wordsSet, ih]

/-- The steps of the first loop of `main` (lines 126-131) for `n` file arguments. -/
theorem createSteps_facts (g : Nat → List Nat) (L : List Nat) :
    stdoutWrites ((L.map (fun k => [Event.attr_init k, Event.create k (g k)])).flatten) = [] ∧
      stderrWrites ((L.map (fun k => [Event.attr_init k, Event.create k (g k)])).flatten) = [] ∧
      joins ((L.map (fun k => [Event.attr_init k, Event.create k (g k)])).flatten) = [] ∧
      wordsSet ((L.map (fun k => [Event.attr_init k, Event.create k (g k)])).flatten) = [] ∧
      creates ((L.map (fun k => [Event.attr_init k, Event.create k (g k)])).flatten) =
        L.map (fun k => (k, g k)) := by
  induction L with
  | nil => exact ⟨rfl, rfl, rfl, rfl, rfl⟩
  | cons k L ih =>
    obtain ⟨h1, h2, h3, h4, h5⟩ := ih
    simp [stdoutWrites, stderrWrites, joins, wordsSet, creates, h1, h2, h3, h4, h5]

/-- The steps of the second loop of `main` (lines 134-136). -/
theorem joinSteps_facts (L : List Nat) :
    stdoutWrites (L.map Event.join) = [] ∧ stderrWrites (L.map Event.join) = [] ∧
      creates (L.map Event.join) = [] ∧ wordsSet (L.map Event.join) = [] ∧
      joins (L.map Event.join) = L := by
  induction L with
  | nil => exact ⟨rfl, rfl, rfl, rfl, rfl⟩
  | cons k L ih =>
    obtain ⟨h1, h2, h3, h4, h5⟩ := ih
    simp [stdoutWrites, stderrWrites, joins, wordsSet, creates, h1, h2, h3, h4, h5]

/-- The steps of `main` when the number of arguments passes the check, the loops being
counted from 0. -/
theorem main_good_steps (argv : List (List Nat)) (h3 : 3 ≤ argv.length) (h7 : argv.length ≤ 7) :
    main argv =
      [Event.stdout (bytes "\n"), Event.setWord (argv.getD 1 [])] ++
        ((List.range (argv.length - 2)).map
          (fun k => [Event.attr_init k, Event.create k (argv.getD (k + 2) [])])).flatten ++
        (List.range (argv.length - 2)).map Event.join ++
        [Event.freeWord, Event.returns EXIT_SUCCESS] := by
  rw [main_of_good_count argv (by omega)]
  simp only [List.range'_eq_map_range, List.map_map, Function.comp_def,
    Nat.add_sub_cancel_left, Nat.add_comm 2]
  simp

/-- C11, as stated, fails: with the program name and a term but no file argument, `main`
signals the usage error and exits with the failure status, but it has written a blank line to
standard output before (line 105), so standard output is not empty. -/
theorem usage_error_output_counterexample :
    ([bytes "find2", bytes "cat"].drop 2).length = 0 ∧
      main [bytes "find2", bytes "cat"] =
        [Event.stdout (bytes "\n"), Event.stderr usage, Event.exit EXIT_FAILURE] ∧
      stdoutWrites (main [bytes "find2", bytes "cat"]) = [[10]] ∧
      stdoutWrites (main [bytes "find2", bytes "cat"]) ≠ [] := by
  decide

/-- C11, amended: for every invocation with 0 file arguments or with 6 or more file
arguments, the program exits with a non-zero status and produces no output beyond the blank
line that `main` writes to standard output at its start and the usage diagnostic: that blank
line is all that is written to standard output, the diagnostic is all that is written to the
error stream, and no worker is created. -/
theorem usage_error_output (argv : List (List Nat))
    (h : (argv.drop 2).length = 0 ∨ 6 ≤ (argv.drop 2).length) :
    main argv = [Event.stdout (bytes "\n"), Event.stderr usage, Event.exit EXIT_FAILURE] ∧
      stdoutWrites (main argv) = [bytes "\n"] ∧
      stderrWrites (main argv) = [usage] ∧
      creates (main argv) = [] ∧
      (main argv).getLast? = some (Event.exit EXIT_FAILURE) ∧
      EXIT_FAILURE ≠ 0 := by
  have hc : argv.length < 3 ∨ argv.length > 7 := by
    simp only [List.length_drop] at h
    omega
  rw [main_of_bad_count argv hc]
  exact ⟨rfl, rfl, rfl, rfl, rfl, by decide⟩

/-- C11, amended, at an invocation with six file arguments. -/
theorem usage_error_output_witness :
    6 ≤ ([bytes "find2", bytes "cat", bytes "a", bytes "b", bytes "c", bytes "d", bytes "e",
        bytes "f"].drop 2).length ∧
      stdoutWrites (main [bytes "find2", bytes "cat", bytes "a", bytes "b", bytes "c",
        bytes "d", bytes "e", bytes "f"]) = [bytes "\n"] ∧
      stderrWrites (main [bytes "find2", bytes "cat", bytes "a", bytes "b", bytes "c",
        bytes "d", bytes "e", bytes "f"]) = [usage] :=
  ⟨by decide,
    (usage_error_output [bytes "find2", bytes "cat", bytes "a", bytes "b", bytes "c",
      bytes "d", bytes "e", bytes "f"] (Or.inr (by decide))).2.1,
    (usage_error_output [bytes "find2", bytes "cat", bytes "a", bytes "b", bytes "c",
      bytes "d", bytes "e", bytes "f"] (Or.inr (by decide))).2.2.1⟩

/-- C16: for every argument vector with one to five file paths, `main` creates exactly one
worker per file path, the worker number `k` (from 0) being given the file path `argv[k + 2]`
and no other, then joins each created worker exactly once, in the order of creation, and then
returns success; every creation comes before the first join. -/
theorem main_creates_then_joins (argv : List (List Nat)) (h3 : 3 ≤ argv.length)
    (h7 : argv.length ≤ 7) :
    creates (main argv) =
        (List.range (argv.drop 2).length).map (fun k => (k, argv.getD (k + 2) [])) ∧
      (creates (main argv)).map Prod.snd = argv.drop 2 ∧
      joins (main argv) = List.range (argv.drop 2).length ∧
      joins (main argv) = (creates (main argv)).map Prod.fst ∧
      (∃ first second, main argv = first ++ second ∧
        creates first = creates (main argv) ∧ joins first = [] ∧
        creates second = [] ∧ joins second = joins (main argv)) ∧
      (main argv).getLast? = some (Event.returns EXIT_SUCCESS) ∧
      EXIT_SUCCESS = 0 := by
  have hn : (argv.drop 2).length = argv.length - 2 := List.length_drop 2 argv
  have hsteps := main_good_steps argv h3 h7
  obtain ⟨_, _, cj, _, cc⟩ :=
    createSteps_facts (fun k => argv.getD (k + 2) []) (List.range (argv.length - 2))
  obtain ⟨_, _, jc, _, jj⟩ := joinSteps_facts (List.range (argv.length - 2))
  have hcreates : creates (main argv) =
      (List.range (argv.length - 2)).map (fun k => (k, argv.getD (k + 2) [])) := by
    rw [hsteps]
    simp only [creates_append, cc, jc]
    simp [creates]
  have hjoins : joins (main argv) = List.range (argv.length - 2) := by
    rw [hsteps]
    simp only [joins_append, cj, jj]
    simp [joins]
  have hargs : (List.range (argv.length - 2)).map (fun k => argv.getD (k + 2) []) =
      argv.drop 2 := by
    apply List.ext_getElem
    · simp
    · intro k hk1 hk2
      simp only [List.length_map, List.length_range] at hk1
      simp only [List.getElem_map, List.getElem_range, List.getElem_drop]
      rw [List.getD_eq_getElem _ _ (by omega)]
      congr 1
      omega
  refine ⟨by rw [hn]; exact hcreates, ?_, by rw [hn]; exact hjoins, ?_, ?_, ?_, rfl⟩
  · rw [hcreates, List.map_map]
    exact hargs
  · rw [hcreates, hjoins, List.map_map]
    simp [Function.comp_def]
  · refine ⟨[Event.stdout (bytes "\n"), Event.setWord (argv.getD 1 [])] ++
        ((List.range (argv.length - 2)).map
          (fun k => [Event.attr_init k, Event.create k (argv.getD (k + 2) [])])).flatten,
      (List.range (argv.length - 2)).map Event.join ++
        [Event.freeWord, Event.returns EXIT_SUCCESS], ?_, ?_, ?_, ?_, ?_⟩
    · rw [hsteps]
      simp
    · rw [hcreates, creates_append, cc]
      simp [creates]
    · rw [joins_append, cj]
      simp [joins]
    · rw [creates_append, jc]
      simp [creates]
    · rw [hjoins, joins_append, jj]
      simp [joins]
  · rw [hsteps]
    have hlast : ∀ X : List Event,
        (X ++ [Event.freeWord, Event.returns EXIT_SUCCESS]).getLast? =
          some (Event.returns EXIT_SUCCESS) := by
      intro X
      rw [show [Event.freeWord, Event.returns EXIT_SUCCESS] =
        [Event.freeWord] ++ [Event.returns EXIT_SUCCESS] from rfl, ← List.append_assoc,
        List.getLast?_concat]
    exact hlast _

/-- C16 at an argument vector with two file paths. -/
theorem main_creates_then_joins_witness :
    3 ≤ [bytes "find2", bytes "cat", bytes "A", bytes "B"].length ∧
      [bytes "find2", bytes "cat", bytes "A", bytes "B"].length ≤ 7 ∧
      creates (main [bytes "find2", bytes "cat", bytes "A", bytes "B"]) =
        [(0, bytes "A"), (1, bytes "B")] ∧
      joins (main [bytes "find2", bytes "cat", bytes "A", bytes "B"]) = [0, 1] := by
  have h := main_creates_then_joins [bytes "find2", bytes "cat", bytes "A", bytes "B"]
    (by decide) (by decide)
  exact ⟨by decide, by decide, by rw [h.1]; decide, by rw [h.2.2.1]; decide⟩

/-! ## The run of the program with one file -/

theorem interleaves_nil_right (xs merged : List (List Nat)) :
    interleaves xs [] merged = true ↔ merged = xs := by
  induction merged generalizing xs with
  | nil => cases xs <;> simp [interleaves]
  | cons z merged ih =>
    cases xs with
    | nil => simp [interleaves]
    | cons x xs =>
      simp only [interleaves, Bool.or_false, Bool.and_eq_true, beq_iff_eq, ih,
        List.cons.injEq]
      constructor
      · rintro ⟨h1, h2⟩
        exact ⟨h1.symm, h2⟩
      · rintro ⟨h1, h2⟩
        exact ⟨h1.symm, h2⟩

theorem main_one_file (a0 a1 a2 : List Nat) :
    main [a0, a1, a2] =
      [Event.stdout (bytes "\n"), Event.setWord a1, Event.attr_init 0,
        Event.create 0 a2, Event.join 0, Event.freeWord, Event.returns EXIT_SUCCESS] := rfl

/-! ## The end of the scan -/

theorem runnerStream_opened (heap : Nat → List Nat) (fopen : List Nat → Option (List Nat))
    (word params content : List Nat) (h : fopen (cstr params) = some content) :
    runnerStream heap fopen word params = some (Stream.opened []) := by
  have hs := scanLoop_fgetc heap word params (content.length + 1) content [] []
    (Nat.lt_succ_self _)
  simp only [runnerStream, h, hs]

/-- C17, as stated, fails: on the file `cat\n`, searched for `cat`, the worker writes the
record and the separator and ends, and the stream it opened is still open (at end of input),
not closed: `runner` has no call of `fclose`. -/
theorem runner_closes_file_counterexample :
    runner terminated (oneFile (bytes "f") (bytes "cat\n")) (bytes "cat") (bytes "f") =
        some { stdout := [bytes "f - cat\n", bytes "\n"], stderr := [],
               ending := Ending.pthread_exit 0, lines := [bytes "cat"] } ∧
      runnerStream terminated (oneFile (bytes "f") (bytes "cat\n")) (bytes "cat") (bytes "f") =
        some (Stream.opened []) ∧
      runnerStream terminated (oneFile (bytes "f") (bytes "cat\n")) (bytes "cat") (bytes "f") ≠
        some Stream.closed := by
  decide

/-- C17, amended: after a worker has exhausted its file it writes the blank separator line
and then signals completion by `pthread_exit` without closing the file: at the point where
`runner` ends, the stream obtained from the open at its start is still open, at end of
input. -/
theorem runner_leaves_file_open (heap : Nat → List Nat)
    (fopen : List Nat → Option (List Nat)) (word params content : List Nat)
    (hopen : fopen (cstr params) = some content) :
    runnerStream heap fopen word params = some (Stream.opened []) ∧
      runnerStream heap fopen word params ≠ some Stream.closed ∧
      ∃ r, runner heap fopen word params = some r ∧
        r.stdout.getLast? = some (bytes "\n") ∧
        r.ending = Ending.pthread_exit 0 := by
  have h := runnerStream_opened heap fopen word params content hopen
  refine ⟨h, ?_, _, runner_opened heap fopen word params content hopen, ?_, rfl⟩
  · rw [h]
    intro hc
    cases hc
  · show (_ ++ [_]).getLast? = _
    rw [List.getLast?_concat]

/-- C17, amended, at the file `cat\n` searched for `cat`. -/
theorem runner_leaves_file_open_witness :
    oneFile (bytes "f") (bytes "cat\n") (cstr (bytes "f")) = some (bytes "cat\n") ∧
      runnerStream terminated (oneFile (bytes "f") (bytes "cat\n")) (bytes "cat") (bytes "f") =
        some (Stream.opened []) :=
  ⟨by decide,
    (runner_leaves_file_open terminated (oneFile (bytes "f") (bytes "cat\n")) (bytes "cat")
      (bytes "f") (bytes "cat\n") (by decide)).1⟩

/-! ## The counters of the line buffer -/

theorem wrap32_of_range (x : Int) (h1 : -2147483648 ≤ x) (h2 : x < 2147483648) :
    wrap32 x = x := by
  unfold wrap32
  omega

theorem countersFrom_succ (cl : Int × Int) (n : Nat) :
    countersFrom cl (n + 1) = grow (countersFrom cl n) := by
  induction n generalizing cl with
  | zero => rfl
  | succ n ih =>
    show countersFrom (grow cl) (n + 1) = grow (countersFrom (grow cl) n)
    exact ih (grow cl)

theorem counters_succ (n : Nat) : counters (n + 1) = grow (counters n) :=
  countersFrom_succ (5, 0) n

/-- While a line has at most `5 * 2^28` bytes, `capacity` is 5 times a power of two up to
`2^28`, `len` is the number of bytes stored, and `len <= capacity`. -/
theorem counters_invariant (n : Nat) (hn : n ≤ 1342177280) :
    ∃ k : Nat, k ≤ 28 ∧ (counters n).1 = 5 * ((2 ^ k : Nat) : Int) ∧
      (counters n).2 = (n : Int) ∧ (n : Int) ≤ (counters n).1 := by
  induction n with
  | zero => exact ⟨0, by omega, by decide, by decide, by decide⟩
  | succ n ih =>
    obtain ⟨k, hk, hc, hl, hle⟩ := ih (by omega)
    have hpow : 2 ^ k ≤ 2 ^ 28 := Nat.pow_le_pow_right (by omega) hk
    have h28 : (2 : Nat) ^ 28 = 268435456 := by norm_num
    have hpos : 0 < 2 ^ k := Nat.two_pow_pos k
    rw [counters_succ]
    have hl1 : wrap32 ((counters n).2 + 1) = (counters n).2 + 1 :=
      wrap32_of_range _ (by omega) (by omega)
    by_cases hge : (counters n).2 ≥ (counters n).1
    · have hk27 : k + 1 ≤ 28 := by
        by_contra hcon
        have hk28 : k = 28 := by omega
        rw [hk28, h28] at hc
        omega
      have hpow2 : 2 ^ (k + 1) ≤ 2 ^ 28 := Nat.pow_le_pow_right (by omega) hk27
      have hsucc : (2 : Nat) ^ (k + 1) = 2 * 2 ^ k := by rw [Nat.pow_succ, Nat.mul_comm]
      have hc1 : wrap32 ((counters n).1 * 2) = (counters n).1 * 2 :=
        wrap32_of_range _ (by omega) (by omega)
      have hg : grow (counters n) = ((counters n).1 * 2, (counters n).2 + 1) := by
        unfold grow
        rw [if_pos hge, hc1, hl1]
      rw [hg]
      exact ⟨k + 1, hk27, by show (counters n).1 * 2 = _; omega,
        by show (counters n).2 + 1 = _; omega, by show _ ≤ (counters n).1 * 2; omega⟩
    · have hg : grow (counters n) = ((counters n).1, (counters n).2 + 1) := by
        unfold grow
        rw [if_neg hge, hl1]
      rw [hg]
      exact ⟨k, hk, hc, by show (counters n).2 + 1 = _; omega,
        by show _ ≤ (counters n).1; omega⟩

theorem counters_at_limit : counters 1342177280 = (1342177280, 1342177280) := by
  obtain ⟨k, hk, hc, hl, hle⟩ := counters_invariant 1342177280 (Nat.le_refl _)
  have hpow : 2 ^ k ≤ 2 ^ 28 := Nat.pow_le_pow_right (by omega) hk
  have h28 : (2 : Nat) ^ 28 = 268435456 := by norm_num
  have h1 : (counters 1342177280).1 = 1342177280 := by omega
  have h2 : (counters 1342177280).2 = 1342177280 := by omega
  exact Prod.ext h1 h2

theorem counters_past_limit : counters 1342177281 = (-1610612736, 1342177281) := by
  rw [counters_succ, counters_at_limit]
  decide

theorem takeWhile_notNewline_replicate (n : Nat) :
    (List.replicate n 97).takeWhile notNewline = List.replicate n 97 ∧
      (List.replicate n 97).dropWhile notNewline = [] := by
  induction n with
  | zero => exact ⟨rfl, rfl⟩
  | succ n ih =>
    have h : notNewline 97 = true := by decide
    simp only [List.replicate_succ, List.takeWhile_cons, List.dropWhile_cons, h, if_true, ih]
    exact ⟨trivial, trivial⟩

/-- The inner loop leaves in `capacity` and `len` the counters of the number of bytes it has
stored. -/
theorem readLine_counters (p : List Nat) :
    ∀ (fuel : Nat) (capacity len : Int) (buffer : List Nat), p.length < fuel →
      readLine fuel
          { fpLines := (fgetc p).2, next := (fgetc p).1, capacity := capacity, len := len,
            buffer := buffer } =
        some
          { fpLines := (fgetc (p.dropWhile notNewline)).2,
            next := (fgetc (p.dropWhile notNewline)).1,
            capacity := (countersFrom (capacity, len) (p.takeWhile notNewline).length).1,
            len := (countersFrom (capacity, len) (p.takeWhile notNewline).length).2,
            buffer := buffer ++ p.takeWhile notNewline } := by
  induction p with
  | nil =>
    intro fuel capacity len buffer hf
    obtain ⟨f, rfl⟩ : ∃ f, fuel = f + 1 := ⟨fuel - 1, by omega⟩
    rw [readLine_eof _ _ rfl]
    simp [countersFrom]
  | cons c p ih =>
    intro fuel capacity len buffer hf
    obtain ⟨f, rfl⟩ : ∃ f, fuel = f + 1 := ⟨fuel - 1, by omega⟩
    have hp : p.length < f := by simpa using hf
    by_cases h : c = 10
    · rw [readLine_newline _ _ (by rw [fgetc_cons, h])]
      simp [notNewline, List.takeWhile, List.dropWhile, h, countersFrom]
    · rw [readLine_step f _ c (by rw [fgetc_cons]) h]
      simp only [fgetc_cons]
      rw [ih f _ _ _ hp]
      simp [notNewline, List.takeWhile, List.dropWhile, h, countersFrom, grow]

/-- C14 fails on a line of `5 * 2^28 + 1 = 1342177281` bytes (here the letter `a`): after
`1342177280` bytes `capacity` and `len` are both `1342177280`; storing the next byte doubles
`capacity` beyond what an `int` holds, and the loop ends with `capacity = -1610612736` below
`len = 1342177281`, so the index `len` of the terminator is not within `capacity + 1` bytes. -/
theorem line_buffer_capacity_overflow :
    counters 1342177280 = (1342177280, 1342177280) ∧
      counters 1342177281 = (-1610612736, 1342177281) ∧
      ¬ ((counters 1342177281).1 ≥ (counters 1342177281).2) ∧
      readLine 1342177282
          { fpLines := List.replicate 1342177280 97, next := some 97, capacity := 5, len := 0,
            buffer := [] } =
        some
          { fpLines := [], next := none, capacity := -1610612736, len := 1342177281,
            buffer := List.replicate 1342177281 97 } ∧
      ¬ ((1342177281 : Int) < allocated [] (List.replicate 1342177281 97) Block.buffer) := by
  have hrep : List.replicate 1342177281 97 = 97 :: List.replicate 1342177280 97 :=
    List.replicate_succ 97 1342177280
  have hlen : (List.replicate 1342177281 97).length < 1342177282 := by
    rw [List.length_replicate]
    omega
  have hrun := readLine_counters (List.replicate 1342177281 97) 1342177282 5 0 [] hlen
  have htake := takeWhile_notNewline_replicate 1342177281
  rw [htake.1, htake.2, List.length_replicate] at hrun
  have hcount : countersFrom (5, 0) 1342177281 = (-1610612736, 1342177281) :=
    counters_past_limit
  rw [hcount, hrep, fgetc_cons, fgetc_nil] at hrun
  refine ⟨counters_at_limit, counters_past_limit, ?_, ?_, ?_⟩
  · rw [counters_past_limit]
    decide
  · rw [hrep]
    exact hrun
  · show ¬ ((1342177281 : Int) < (counters (List.replicate 1342177281 97).length).1 + 1)
    rw [List.length_replicate, counters_past_limit]
    decide

/-! ## Stores into memory -/

theorem lineStores_block_ne_word (word line : List Nat) :
    ∀ s ∈ lineStores word line, s.block ≠ Block.word := by
  intro s hs
  simp only [lineStores, copyStores, List.mem_append, List.mem_map, List.mem_singleton] at hs
  rcases hs with (((⟨i, _, rfl⟩ | rfl) | ⟨i, _, rfl⟩) | ⟨i, _, rfl⟩) | rfl <;>
    exact fun h => Block.noConfusion h

/-- C18 fails at the term `cat` and a file whose line is `cat`: the terminator of `wordLower`
is stored at index 3 of a block of 3 bytes, and so is the terminator of `word` by `strcpy`;
`bufferLower` has 3 bytes, filled at indexes 0 to 2 by bytes other than NUL, and gets no
terminator, so `strstr` reads behind it: the line `bb` is reported for the term `xyz` when
memory holds `xyz` behind the copy. -/
theorem string_copies_overrun :
    (∀ word line : List Nat,
        ({ block := Block.wordLower, index := strlen word, value := 0 } : Store) ∈
            lineStores word line ∧
          allocated word line Block.wordLower = (strlen word : Int)) ∧
      (∀ src : List Nat,
        ({ block := Block.word, index := strlen src, value := 0 } : Store) ∈ strcpyStores src) ∧
      ({ block := Block.wordLower, index := 3, value := 0 } : Store) ∈
        lineStores (bytes "cat") (bytes "cat") ∧
      allocated (bytes "cat") (bytes "cat") Block.wordLower = 3 ∧
      ({ block := Block.word, index := 3, value := 0 } : Store) ∈ strcpyStores (bytes "cat") ∧
      allocated (bytes "cat") (bytes "cat") Block.word = 3 ∧
      allocated (bytes "cat") (bytes "cat") Block.bufferLower = 3 ∧
      (∀ s ∈ lineStores (bytes "cat") (bytes "cat"),
        s.block = Block.bufferLower → s.index < 3 ∧ s.value ≠ 0) ∧
      testLine (bytes "xyz") (bytes "f") (bytes "bb") (bytes "xyz") = [bytes "f - bb\n"] ∧
      ¬ lowerContains (bytes "bb") (bytes "xyz") := by
  refine ⟨fun word line => ⟨?_, rfl⟩, fun src => ?_, by decide, by decide, by decide, by decide,
    by decide, by decide, by decide, by decide⟩
  · simp [lineStores]
  · simp [strcpyStores]

/-! ## Lines that hold a NUL byte -/

theorem testLine_cstr (word paramsName line after : List Nat) :
    testLine word paramsName (cstr line) after = testLine word paramsName line after := by
  rw [testLine_eq, testLine_eq, cstr_idem]

theorem scanLines_map_cstr (heap : Nat → List Nat) (word paramsName : List Nat)
    (lines : List (List Nat)) :
    ∀ k, scanLines heap word paramsName k (lines.map cstr) =
      scanLines heap word paramsName k lines := by
  induction lines with
  | nil => intro k; rfl
  | cons l ls ih =>
    intro k
    simp only [List.map_cons, scanLines, testLine_cstr, ih]

/-! ## The loops with the answer of `realloc` -/

theorem readLineChecked_eof (fuel : Nat) (s : LineState) (h : s.next = none) :
    readLineChecked (fuel + 1) s = some (Run.returned s) := by
  simp [readLineChecked, h]

theorem readLineChecked_newline (fuel : Nat) (s : LineState) (h : s.next = some 10) :
    readLineChecked (fuel + 1) s = some (Run.returned s) := by
  simp [readLineChecked, h]

theorem readLineChecked_step (fuel : Nat) (s : LineState) (c : Nat) (h : s.next = some c)
    (hc : c ≠ 10)
    (hok : ¬ (s.len ≥ s.capacity ∧
      reallocFails
        (wrap32 ((if s.len ≥ s.capacity then wrap32 (s.capacity * 2) else s.capacity) + 1)) =
          true)) :
    readLineChecked (fuel + 1) s =
      readLineChecked fuel
        { fpLines := (fgetc s.fpLines).2, next := (fgetc s.fpLines).1,
          capacity := if s.len ≥ s.capacity then wrap32 (s.capacity * 2) else s.capacity,
          len := wrap32 (s.len + 1), buffer := s.buffer ++ [c] } := by
  simp only [readLineChecked, h, if_neg hc, if_neg hok]

theorem readLineChecked_kill (fuel : Nat) (s : LineState) (c : Nat) (h : s.next = some c)
    (hc : c ≠ 10)
    (hkill : s.len ≥ s.capacity ∧
      reallocFails
        (wrap32 ((if s.len ≥ s.capacity then wrap32 (s.capacity * 2) else s.capacity) + 1)) =
          true) :
    readLineChecked (fuel + 1) s = some Run.killed := by
  simp only [readLineChecked, h, if_neg hc, if_pos hkill]

/-- Whenever the loop with the answer of `realloc` returns, `readLine` returns the same. -/
theorem readLine_of_readLineChecked :
    ∀ (fuel : Nat) (s b : LineState), readLineChecked fuel s = some (Run.returned b) →
      readLine fuel s = some b := by
  intro fuel
  induction fuel with
  | zero =>
    intro s b h
    simp [readLineChecked] at h
  | succ f ih =>
    intro s b h
    cases hn : s.next with
    | none =>
      rw [readLineChecked_eof f s hn] at h
      rw [readLine_eof f s hn]
      cases h
      rfl
    | some c =>
      by_cases hc : c = 10
      · rw [readLineChecked_newline f s (by rw [hn, hc])] at h
        rw [readLine_newline f s (by rw [hn, hc])]
        cases h
        rfl
      · by_cases hk : s.len ≥ s.capacity ∧
            reallocFails
              (wrap32 ((if s.len ≥ s.capacity then wrap32 (s.capacity * 2) else s.capacity)
                + 1)) = true
        · rw [readLineChecked_kill f s c hn hc hk] at h
          cases h
        · rw [readLineChecked_step f s c hn hc hk] at h
          rw [readLine_step f s c hn hc]
          exact ih _ b h

/-- While the line has at most `5 * 2^28` bytes no `realloc` is refused. -/
theorem no_kill_below_limit (n : Nat) (hn : n + 1 ≤ 1342177280) :
    ¬ ((counters n).2 ≥ (counters n).1 ∧
      reallocFails
        (wrap32 ((if (counters n).2 ≥ (counters n).1 then wrap32 ((counters n).1 * 2)
          else (counters n).1) + 1)) = true) := by
  obtain ⟨k, hk, hc, hl, hle⟩ := counters_invariant (n + 1) hn
  have hpow : 2 ^ k ≤ 2 ^ 28 := Nat.pow_le_pow_right (by omega) hk
  have h28 : (2 : Nat) ^ 28 = 268435456 := by norm_num
  have hcap : (counters (n + 1)).1 =
      (if (counters n).2 ≥ (counters n).1 then wrap32 ((counters n).1 * 2)
        else (counters n).1) := by
    rw [counters_succ]
    rfl
  rw [← hcap]
  rintro ⟨_, hf⟩
  rw [wrap32_of_range _ (by omega) (by omega)] at hf
  simp only [reallocFails, decide_eq_true_eq] at hf
  omega

/-- On a line of at most `5 * 2^28` bytes the loop with the answer of `realloc` returns what
`readLine` returns. -/
theorem readLineChecked_short (p : List Nat) :
    ∀ (fuel n : Nat) (buffer : List Nat), p.length < fuel →
      n + (p.takeWhile notNewline).length ≤ 1342177280 →
      readLineChecked fuel
          { fpLines := (fgetc p).2, next := (fgetc p).1, capacity := (counters n).1,
            len := (counters n).2, buffer := buffer } =
        (readLine fuel
          { fpLines := (fgetc p).2, next := (fgetc p).1, capacity := (counters n).1,
            len := (counters n).2, buffer := buffer }).map Run.returned := by
  induction p with
  | nil =>
    intro fuel n buffer hf _
    obtain ⟨f, rfl⟩ : ∃ f, fuel = f + 1 := ⟨fuel - 1, by omega⟩
    rw [readLineChecked_eof _ _ rfl, readLine_eof _ _ rfl]
    rfl
  | cons c p ih =>
    intro fuel n buffer hf hlen
    obtain ⟨f, rfl⟩ : ∃ f, fuel = f + 1 := ⟨fuel - 1, by omega⟩
    have hp : p.length < f := by simpa using hf
    by_cases h : c = 10
    · rw [readLineChecked_newline _ _ (by rw [fgetc_cons, h]),
        readLine_newline _ _ (by rw [fgetc_cons, h])]
      rfl
    · have htake : (c :: p).takeWhile notNewline = c :: p.takeWhile notNewline := by
        simp [List.takeWhile, notNewline, h]
      rw [htake, List.length_cons] at hlen
      have hok := no_kill_below_limit n (by omega)
      rw [readLineChecked_step f _ c (by rw [fgetc_cons]) h hok,
        readLine_step f _ c (by rw [fgetc_cons]) h]
      have hnext : counters (n + 1) =
          ((if (counters n).2 ≥ (counters n).1 then wrap32 ((counters n).1 * 2)
            else (counters n).1), wrap32 ((counters n).2 + 1)) := by
        rw [counters_succ]
        rfl
      have h1 := congrArg Prod.fst hnext
      have h2 := congrArg Prod.snd hnext
      simp only at h1 h2
      simp only [fgetc_cons]
      rw [← h1, ← h2]
      exact ih f (n + 1) (buffer ++ [c]) hp (by omega)

theorem scanLoop_of_scanLoopChecked (heap : Nat → List Nat) (word paramsName : List Nat) :
    ∀ (fuel : Nat) (s t : Scan),
      scanLoopChecked heap word paramsName fuel s = some (Run.returned t) →
      scanLoop heap word paramsName fuel s = some t := by
  intro fuel
  induction fuel with
  | zero =>
    intro s t h
    simp [scanLoopChecked] at h
  | succ f ih =>
    intro s t h
    cases hn : s.next with
    | none =>
      simp only [scanLoopChecked, hn] at h
      simp only [scanLoop, hn]
      cases h
      rfl
    | some c =>
      simp only [scanLoopChecked, hn] at h
      simp only [scanLoop, hn]
      cases hr : readLineChecked (f + 1)
          { fpLines := s.fpLines, next := some c, capacity := 5, len := 0, buffer := [] } with
      | none =>
        rw [hr] at h
        cases h
      | some res =>
        rw [hr] at h
        cases res with
        | killed => cases h
        | returned b =>
          rw [readLine_of_readLineChecked _ _ b hr]
          exact ih _ t h

theorem runner_of_runnerChecked (heap : Nat → List Nat) (fopen : List Nat → Option (List Nat))
    (word params : List Nat) (r : Result)
    (h : runnerChecked heap fopen word params = some (Run.returned r)) :
    runner heap fopen word params = some r := by
  cases hf : fopen (cstr params) with
  | none =>
    simp only [runnerChecked, hf] at h
    rw [runner_not_opened heap fopen word params hf]
    cases h
    rfl
  | some content =>
    simp only [runnerChecked, hf] at h
    simp only [runner, hf]
    cases hs : scanLoopChecked heap word params (content.length + 1)
        { fpLines := (fgetc content).2, next := (fgetc content).1, out := [], lines := [] } with
    | none =>
      rw [hs] at h
      cases h
    | some res =>
      rw [hs] at h
      cases res with
      | killed => cases h
      | returned t =>
        rw [scanLoop_of_scanLoopChecked heap word params _ _ t hs]
        cases h
        rfl

/-- On a content whose lines have at most `5 * 2^28` bytes the outer loop with the answer of
`realloc` returns what `scanLoop` returns. -/
theorem scanLoopChecked_fgetc (heap : Nat → List Nat) (word paramsName : List Nat) :
    ∀ (fuel : Nat) (p : List Nat) (out lines : List (List Nat)), p.length < fuel →
      (∀ line ∈ fileLines p, line.length ≤ 1342177280) →
      scanLoopChecked heap word paramsName fuel
          { fpLines := (fgetc p).2, next := (fgetc p).1, out := out, lines := lines } =
        some (Run.returned
          { fpLines := [], next := none,
            out := out ++ scanLines heap word paramsName lines.length (fileLines p),
            lines := lines ++ fileLines p }) := by
  intro fuel
  induction fuel with
  | zero => intro p out lines hf; omega
  | succ f ih =>
    intro p out lines hf hshort
    cases p with
    | nil => simp [scanLoopChecked, fgetc, fileLines, scanLines]
    | cons c rest =>
      rw [fileLines_cons_eq] at hshort
      have hfirst : ((c :: rest).takeWhile notNewline).length ≤ 1342177280 :=
        hshort _ (List.mem_cons_self _ _)
      have hrest : ∀ line ∈ fileLines ((c :: rest).dropWhile notNewline).tail,
          line.length ≤ 1342177280 := fun line hl => hshort line (List.mem_cons_of_mem _ hl)
      obtain ⟨c1, l1, hc1⟩ := readLine_fgetc (c :: rest) (f + 1) 5 0 [] hf
      have hchk := readLineChecked_short (c :: rest) (f + 1) 0 [] hf (by omega)
      have hchk2 : readLineChecked (f + 1)
          { fpLines := rest, next := some c, capacity := 5, len := 0, buffer := [] } =
          some (Run.returned
            { fpLines := (fgetc ((c :: rest).dropWhile notNewline)).2,
              next := (fgetc ((c :: rest).dropWhile notNewline)).1,
              capacity := c1, len := l1,
              buffer := [] ++ (c :: rest).takeWhile notNewline }) := by
        have hc2 : readLine (f + 1)
            { fpLines := rest, next := some c, capacity := 5, len := 0, buffer := [] } = _ := hc1
        have hchk3 : readLineChecked (f + 1)
            { fpLines := rest, next := some c, capacity := 5, len := 0, buffer := [] } =
            (readLine (f + 1)
              { fpLines := rest, next := some c, capacity := 5, len := 0,
                buffer := [] }).map Run.returned := hchk
        rw [hchk3, hc2]
        rfl
      have hlen : ((c :: rest).dropWhile notNewline).tail.length < f := by
        have h1 := (List.dropWhile_suffix (l := c :: rest) notNewline).length_le
        have h2 := List.length_tail ((c :: rest).dropWhile notNewline)
        simp only [List.length_cons] at h1 hf
        omega
      have hrec := ih ((c :: rest).dropWhile notNewline).tail
        (out ++ testLine word paramsName ((c :: rest).takeWhile notNewline) (heap lines.length))
        (lines ++ [(c :: rest).takeWhile notNewline]) hlen hrest
      have hstep : scanLoopChecked heap word paramsName (f + 1)
          { fpLines := (fgetc (c :: rest)).2, next := (fgetc (c :: rest)).1, out := out,
            lines := lines } =
          scanLoopChecked heap word paramsName f
            { fpLines := (fgetc ((c :: rest).dropWhile notNewline).tail).2,
              next := (fgetc ((c :: rest).dropWhile notNewline).tail).1,
              out := out ++
                testLine word paramsName ((c :: rest).takeWhile notNewline) (heap lines.length),
              lines := lines ++ [(c :: rest).takeWhile notNewline] } := by
        simp only [scanLoopChecked, fgetc]
        rw [hchk2]
        simp [fgetc_snd]
      rw [hstep, hrec, fileLines_cons_eq]
      simp [List.append_assoc, scanLines]

/-- On a file that can be opened and whose lines have at most `5 * 2^28` bytes, the worker with
the answer of `realloc` returns what `runner` returns. -/
theorem runnerChecked_opened (heap : Nat → List Nat) (fopen : List Nat → Option (List Nat))
    (word params content : List Nat) (h : fopen (cstr params) = some content)
    (hshort : ∀ line ∈ fileLines content, line.length ≤ 1342177280) :
    runnerChecked heap fopen word params =
      some (Run.returned
        { stdout := scanLines heap word params 0 (fileLines content) ++ [bytes "\n"],
          stderr := [],
          ending := Ending.pthread_exit 0,
          lines := fileLines content }) := by
  have hs := scanLoopChecked_fgetc heap word params (content.length + 1) content [] []
    (Nat.lt_succ_self _) hshort
  simp only [runnerChecked, h, hs]
  simp

/-- On a line of `5 * 2^28 + 1` letters `a` the inner loop is killed: `n` letters are stored
and `m + 1` more are to come, with `n + m = 5 * 2^28`. -/
theorem readLineChecked_killed :
    ∀ (m n fuel : Nat) (buffer : List Nat), n + m = 1342177280 → m + 1 ≤ fuel →
      readLineChecked fuel
          { fpLines := List.replicate m 97, next := some 97, capacity := (counters n).1,
            len := (counters n).2, buffer := buffer } = some Run.killed := by
  intro m
  induction m with
  | zero =>
    intro n fuel buffer hn hf
    obtain ⟨f, rfl⟩ : ∃ f, fuel = f + 1 := ⟨fuel - 1, by omega⟩
    have hn2 : n = 1342177280 := by omega
    have hcap : (counters n).1 = 1342177280 := by rw [hn2, counters_at_limit]
    have hlen : (counters n).2 = 1342177280 := by rw [hn2, counters_at_limit]
    apply readLineChecked_kill f _ 97 rfl (by omega)
    show (counters n).2 ≥ (counters n).1 ∧ _
    rw [hcap, hlen]
    refine ⟨Int.le_refl _, ?_⟩
    rw [if_pos (Int.le_refl _)]
    simp only [reallocFails, decide_eq_true_eq]
    unfold wrap32
    omega
  | succ m ih =>
    intro n fuel buffer hn hf
    obtain ⟨f, rfl⟩ : ∃ f, fuel = f + 1 := ⟨fuel - 1, by omega⟩
    have hok := no_kill_below_limit n (by omega)
    rw [readLineChecked_step f _ 97 rfl (by decide) hok]
    have hnext : counters (n + 1) =
        ((if (counters n).2 ≥ (counters n).1 then wrap32 ((counters n).1 * 2)
          else (counters n).1), wrap32 ((counters n).2 + 1)) := by
      rw [counters_succ]
      rfl
    have h1 := congrArg Prod.fst hnext
    have h2 := congrArg Prod.snd hnext
    simp only at h1 h2
    rw [List.replicate_succ, fgetc_cons]
    simp only []
    rw [← h1, ← h2]
    exact ih (n + 1) f (buffer ++ [97]) (by omega) (by omega)

theorem scanLoopChecked_killed (heap : Nat → List Nat) (word paramsName : List Nat)
    (fuel : Nat) (out lines : List (List Nat)) (hf : 1342177281 ≤ fuel) :
    scanLoopChecked heap word paramsName (fuel + 1)
        { fpLines := List.replicate 1342177280 97, next := some 97, out := out,
          lines := lines } = some Run.killed := by
  have hk := readLineChecked_killed 1342177280 0 (fuel + 1) [] (by omega) (by omega)
  have hk2 : readLineChecked (fuel + 1)
      { fpLines := List.replicate 1342177280 97, next := some 97, capacity := 5, len := 0,
        buffer := [] } = some Run.killed := hk
  simp only [scanLoopChecked]
  rw [hk2]

theorem fgetc_long_line :
    fgetc (List.replicate 1342177281 97) = (some 97, List.replicate 1342177280 97) := by
  have hrep : List.replicate 1342177281 97 = 97 :: List.replicate 1342177280 97 :=
    List.replicate_succ 97 1342177280
  rw [hrep, fgetc_cons]

theorem length_long_line : 1342177281 ≤ (List.replicate 1342177281 97).length :=
  Nat.le_of_eq (List.length_replicate 1342177281 97).symm

theorem runnerChecked_killed_of (heap : Nat → List Nat)
    (fopen : List Nat → Option (List Nat)) (word params content : List Nat)
    (h : fopen (cstr params) = some content)
    (hget : fgetc content = (some 97, List.replicate 1342177280 97))
    (hlen : 1342177281 ≤ content.length) :
    runnerChecked heap fopen word params = some Run.killed := by
  have hs := scanLoopChecked_killed heap word params content.length [] [] hlen
  simp only [runnerChecked, h]
  rw [hget, hs]

/-- On a file that starts with a line of `5 * 2^28 + 1` letters `a` the worker is killed. -/
theorem runnerChecked_killed (heap : Nat → List Nat) (fopen : List Nat → Option (List Nat))
    (word params : List Nat)
    (h : fopen (cstr params) = some (List.replicate 1342177281 97)) :
    runnerChecked heap fopen word params = some Run.killed :=
  runnerChecked_killed_of heap fopen word params _ h fgetc_long_line length_long_line

/-! ## Claims that rest on the answer of `realloc` and on the memory behind `word` -/

/-- C13 fails on a file whose first line has `5 * 2^28 + 1 = 1342177281` bytes (here the
letter `a`): when the last of them is to be stored, `capacity` wraps below zero, `realloc`
gives NULL and the store of line 63 kills the process, so the scan does not reach end of
input, no separator is written and the worker does not complete. -/
theorem runner_killed_on_long_line :
    oneFile (bytes "f") (List.replicate 1342177281 97) (cstr (bytes "f")) =
        some (List.replicate 1342177281 97) ∧
      readLineChecked 1342177282
          { fpLines := List.replicate 1342177280 97, next := some 97, capacity := 5, len := 0,
            buffer := [] } = some Run.killed ∧
      runnerChecked terminated (oneFile (bytes "f") (List.replicate 1342177281 97)) (bytes "a")
          (bytes "f") = some Run.killed ∧
      (∀ r : Result,
        runnerChecked terminated (oneFile (bytes "f") (List.replicate 1342177281 97))
          (bytes "a") (bytes "f") ≠ some (Run.returned r)) := by
  have hopen : oneFile (bytes "f") (List.replicate 1342177281 97) (cstr (bytes "f")) =
      some (List.replicate 1342177281 97) := by
    unfold oneFile
    rw [if_pos (by decide)]
  have hk := runnerChecked_killed terminated
    (oneFile (bytes "f") (List.replicate 1342177281 97)) (bytes "a") (bytes "f") hopen
  refine ⟨hopen, readLineChecked_killed 1342177280 0 1342177282 [] (by omega) (by omega), hk,
    fun r hr => ?_⟩
  rw [hk] at hr
  cases hr

theorem oneWorkerStdout_one_file (heap : Nat → List Nat) (behind : List Nat)
    (fopen : List Nat → Option (List Nat)) (a0 a1 a2 : List Nat) (out : List (List Nat)) :
    oneWorkerStdout heap behind fopen [a0, a1, a2] out =
      match runnerChecked heap fopen (wordRead a1 behind) a2 with
      | some (Run.returned r) =>
        decide (r.ending = Ending.pthread_exit 0) &&
          (out.take 1 == [bytes "\n"] && interleaves r.stdout [] (out.drop 1))
      | _ => false := by
  simp only [oneWorkerStdout, main_one_file, List.takeWhile, List.dropWhile, isCreate,
    Bool.not_false, Bool.not_true, wordsSet, creates, stdoutWrites, List.length_singleton]
  rfl

/-- C12: for every successful run with exactly one file argument, standard output is exactly
the blank line written by `main`, then the records of the worker in the order of the lines of
the file, then one blank separator line, and nothing else; the worker tests the lines against
the string it reads at `word`.  On a file whose lines have at most `5 * 2^28` bytes the run
is successful and gives this output. -/
theorem one_file_stdout (heap : Nat → List Nat) (behind : List Nat)
    (fopen : List Nat → Option (List Nat)) (argv : List (List Nat)) (content : List Nat)
    (hargc : argv.length = 3) (hopen : fopen (cstr (argv.getD 2 [])) = some content) :
    (∀ out, oneWorkerStdout heap behind fopen argv out = true →
        out = [bytes "\n"] ++
          scanLines heap (wordRead (argv.getD 1 []) behind) (argv.getD 2 []) 0
            (specLines content) ++
          [bytes "\n"]) ∧
      ((∀ line ∈ specLines content, line.length ≤ 1342177280) →
        oneWorkerStdout heap behind fopen argv
          ([bytes "\n"] ++
            scanLines heap (wordRead (argv.getD 1 []) behind) (argv.getD 2 []) 0
              (specLines content) ++
            [bytes "\n"]) = true) ∧
      (∃ idx : List Nat, idx.Pairwise (fun i j => i < j) ∧
        (∀ i ∈ idx, i < (specLines content).length) ∧
        scanLines heap (wordRead (argv.getD 1 []) behind) (argv.getD 2 []) 0
            (specLines content) =
          idx.map (fun i => record (argv.getD 2 []) ((specLines content).getD i []))) := by
  refine ⟨?_, ?_, ?_⟩
  · intro out hout
    match argv, hargc with
    | [a0, a1, a2], _ =>
      have hopen2 : fopen (cstr a2) = some content := hopen
      rw [oneWorkerStdout_one_file] at hout
      simp only [List.getD_cons_succ, List.getD_cons_zero]
      rw [specLines_eq_fileLines]
      cases hr : runnerChecked heap fopen (wordRead a1 behind) a2 with
      | none =>
        rw [hr] at hout
        cases hout
      | some res =>
        rw [hr] at hout
        cases res with
        | killed => cases hout
        | returned r =>
          have h1 := runner_of_runnerChecked heap fopen (wordRead a1 behind) a2 r hr
          rw [runner_opened heap fopen (wordRead a1 behind) a2 content hopen2] at h1
          cases h1
          simp only [Bool.and_eq_true, beq_iff_eq, interleaves_nil_right] at hout
          rw [← List.take_append_drop 1 out, hout.2.1, hout.2.2]
          simp
  · intro hshort
    match argv, hargc with
    | [a0, a1, a2], _ =>
      have hopen2 : fopen (cstr a2) = some content := hopen
      rw [specLines_eq_fileLines] at hshort ⊢
      rw [oneWorkerStdout_one_file]
      simp only [List.getD_cons_succ, List.getD_cons_zero]
      rw [runnerChecked_opened heap fopen (wordRead a1 behind) a2 content hopen2 hshort]
      simp [interleaves_nil_right]
  · refine ⟨matchedIndexes heap (wordRead (argv.getD 1 []) behind) (argv.getD 2 []) 0
        (specLines content), matchedIndexes_pairwise _ _ _ _ 0, ?_, ?_⟩
    · intro i hi
      have := matchedIndexes_bounds _ _ _ _ 0 i hi
      omega
    · rw [scanLines_eq_map_matchedIndexes]
      simp

/-- C12 at the file `The cat sat\nDog ran\n` searched for `Cat`, the terminator of `word`
being in place. -/
theorem one_file_stdout_witness :
    [bytes "find2", bytes "Cat", bytes "A"].length = 3 ∧
      oneFile (bytes "A") (bytes "The cat sat\nDog ran\n")
        (cstr ([bytes "find2", bytes "Cat", bytes "A"].getD 2 [])) =
          some (bytes "The cat sat\nDog ran\n") ∧
      oneWorkerStdout terminated [0] (oneFile (bytes "A") (bytes "The cat sat\nDog ran\n"))
        [bytes "find2", bytes "Cat", bytes "A"]
        [bytes "\n", bytes "A - The cat sat\n", bytes "\n"] = true ∧
      ∀ out,
        oneWorkerStdout terminated [0] (oneFile (bytes "A") (bytes "The cat sat\nDog ran\n"))
          [bytes "find2", bytes "Cat", bytes "A"] out = true →
        out = [bytes "\n", bytes "A - The cat sat\n", bytes "\n"] := by
  refine ⟨by decide, by decide, by decide, fun out hout => ?_⟩
  have h := (one_file_stdout terminated [0]
    (oneFile (bytes "A") (bytes "The cat sat\nDog ran\n"))
    [bytes "find2", bytes "Cat", bytes "A"] (bytes "The cat sat\nDog ran\n") (by decide)
    (by decide)).1 out hout
  rw [h]
  decide

/-- C15 fails at a term of 24 bytes (here the letter `q`): `main` copies it into a block of
24 bytes and `strcpy` stores the terminator at index 24, behind the block; when that byte has
been overwritten (here memory behind the block holds the bytes 49 and 1 before a NUL) the
string a worker reads at `word` is the term followed by these bytes, not `argv[1]`, and the
run on a file whose line is the term prints no record.  The stores a worker makes for a line
never go to the block `word`, and with the terminator in place the string read is
`argv[1]`. -/
theorem word_read_past_block :
    wordsSet (main [bytes "find2", List.replicate 24 113, bytes "f"]) =
        [List.replicate 24 113] ∧
      ({ block := Block.word, index := 24, value := 0 } : Store) ∈
        strcpyStores (List.replicate 24 113) ∧
      allocated (List.replicate 24 113) [] Block.word = 24 ∧
      wordRead (List.replicate 24 113) [49, 1, 0] = List.replicate 24 113 ++ [49, 1] ∧
      wordRead (List.replicate 24 113) [49, 1, 0] ≠ List.replicate 24 113 ∧
      oneWorkerStdout terminated [49, 1, 0]
        (oneFile (bytes "f") (List.replicate 24 113 ++ [10]))
        [bytes "find2", List.replicate 24 113, bytes "f"] [[10], [10]] = true ∧
      oneWorkerStdout terminated [0]
        (oneFile (bytes "f") (List.replicate 24 113 ++ [10]))
        [bytes "find2", List.replicate 24 113, bytes "f"]
        [[10], bytes "f - " ++ List.replicate 24 113 ++ [10], [10]] = true ∧
      (∀ arg behind : List Nat, behind.head? = some 0 → wordRead arg behind = cstr arg) ∧
      (∀ word line : List Nat, ∀ s ∈ lineStores word line, s.block ≠ Block.word) := by
  refine ⟨by decide, by decide, by decide, by decide, by decide, by decide, by decide, ?_,
    lineStores_block_ne_word⟩
  intro arg behind hb
  unfold wordRead
  rw [cstr_append_of_not_mem _ _ (zero_not_mem_cstr arg), cstr_of_head_nul behind hb,
    List.append_nil]

theorem allocated_bufferLower (word line : List Nat) (h : line.length ≤ 1342177280) :
    allocated word line Block.bufferLower = (line.length : Int) := by
  obtain ⟨k, _, _, hl, _⟩ := counters_invariant line.length h
  exact hl

/-- C19 fails where the memory behind the lower-cased copy is not the same for a line and for
the line cut at its first NUL byte.  The term is `bcd`; the first line of both files is
sixteen dots and `bcd`; the second line is sixteen dots, a NUL byte and nine letters `z` in
the first file and the sixteen dots in the second.  The copy of the uncut line is made in a
block of 26 bytes, with a NUL behind the sixteen bytes stored; the copy of the cut line is
made in a block of 16 bytes, the block in which the copy of the first line was made, so `bcd`
still lies behind the sixteen bytes stored: the cut line is reported and the uncut line is
not.  With the same memory behind the copy the two are treated alike. -/
theorem nul_line_report_differs :
    specLines (bytes "................bcd\n................\n") =
        (specLines (bytes "................bcd\n................" ++ [0] ++
          bytes "zzzzzzzzz\n")).map cstr ∧
      allocated (bytes "bcd") (bytes "................" ++ [0] ++ bytes "zzzzzzzzz")
        Block.bufferLower = 26 ∧
      allocated (bytes "bcd") (cstr (bytes "................" ++ [0] ++ bytes "zzzzzzzzz"))
        Block.bufferLower = 16 ∧
      runner terminated
          (oneFile (bytes "f")
            (bytes "................bcd\n................" ++ [0] ++ bytes "zzzzzzzzz\n"))
          (bytes "bcd") (bytes "f") =
        some { stdout := [bytes "f - ................bcd\n", bytes "\n"], stderr := [],
               ending := Ending.pthread_exit 0,
               lines := [bytes "................bcd",
                 bytes "................" ++ [0] ++ bytes "zzzzzzzzz"] } ∧
      runner (fun k => if k = 1 then bytes "bcd" ++ [0] else [0])
          (oneFile (bytes "f") (bytes "................bcd\n................\n"))
          (bytes "bcd") (bytes "f") =
        some { stdout := [bytes "f - ................bcd\n", bytes "f - ................\n",
                 bytes "\n"],
               stderr := [], ending := Ending.pthread_exit 0,
               lines := [bytes "................bcd", bytes "................"] } ∧
      testLine (bytes "bcd") (bytes "f")
        (bytes "................" ++ [0] ++ bytes "zzzzzzzzz") [0] = [] ∧
      testLine (bytes "bcd") (bytes "f")
        (cstr (bytes "................" ++ [0] ++ bytes "zzzzzzzzz")) (bytes "bcd" ++ [0]) =
          [bytes "f - ................\n"] ∧
      (∀ word params line after : List Nat,
        testLine word params (cstr line) after = testLine word params line after) := by
  refine ⟨by decide, ?_, ?_, by decide, by decide, by decide, by decide, testLine_cstr⟩
  · rw [allocated_bufferLower _ _ (by decide)]
    decide
  · rw [allocated_bufferLower _ _ (by decide)]
    decide

end WordFinder
